import Mathlib

/-!
# Mancala rules engine (`src/Mancala.js`, class `MancalaGame`)

A shallow embedding of the game-state machine of `MancalaGame`.

* An instance is the record of its four fields; a method is a function from the
  instance before the call to what the call returns and the instance after it.
* The board `pits` is a list of counts; indices are JavaScript integers (`Int`).
  `rd` and `wr` are the array read and write. On a board of 14 counts every index
  `makeMove` and `checkGameEnd` touch lies in `0..13`, which is where `rd` and `wr`
  agree with the JavaScript array; the theorems about boards carry the hypothesis
  `pits.length = 14`.
* A count is a JavaScript number holding a natural number. Comparisons are exact;
  every `+ 1`, `++`, `--` and `+=` of the source yields the IEEE double nearest to the
  exact result, `dbl` of it: exact below `2 ^ 53`, rounded from there on.
* The sowing loop is `sowLoop`, by recursion on a number of iterations, and yields
  `none` when the loop has not exited within them; `makeMove` yields `none` when its
  loop does not exit. A hand whose decrement is lost to rounding never changes and
  the loop then exits within no number of iterations (`sowLoop_stuck`).
* `currentPlayer` is a number: as in the source, every test is `player === 1` and any
  other value takes the Player 2 branch.
* `handlePitClick` and `syncState` are modelled up to their return, on the lock
  `isSyncing` and the game, together with the list of what the call did in order;
  the published value is the record handed to `JSON.stringify`.
-/

namespace Mancala

/-- The values `winner` takes in `checkGameEnd`: `1`, `2` or `'draw'`. -/
inductive Winner where
  | p1
  | p2
  | draw
  deriving DecidableEq, Repr

/-- The four fields of a `MancalaGame` instance. `winner = none` is `null`. -/
structure MancalaGame where
  pits : List Nat
  currentPlayer : Nat
  winner : Option Winner
  gameOver : Bool
  deriving DecidableEq, Repr

/-- Array read `pits[i]`, for an index `0 ≤ i < pits.length`. -/
def rd (pits : List Nat) (i : Int) : Nat := pits.getD i.toNat 0

/-- Array write `pits[i] = v`, for an index `0 ≤ i < pits.length`. -/
def wr (pits : List Nat) (i : Int) (v : Nat) : List Nat := pits.set i.toNat v

/-- The spacing of the doubles around `n`: the least power of two `q`, starting from
`q`, with `n / q < 2 ^ 53` (a double has a significand of 53 bits). -/
def ulpFrom : Nat → Nat → Nat → Nat
  | 0, q, _ => q
  | fuel + 1, q, n => if n / q < 2 ^ 53 then q else ulpFrom fuel (2 * q) n

/-- The natural number a JavaScript number holds when the exact result of an
operation is `n`: the nearest double, ties to the even significand. Exact below
`2 ^ 53`; the doubles end below `2 ^ 1024`. -/
def dbl (n : Nat) : Nat :=
  if n < 2 ^ 53 then n
  else
    let q := ulpFrom 1024 1 n
    let k := n / q
    let r := n % q
    if 2 * r < q then k * q
    else if q < 2 * r then (k + 1) * q
    else if k % 2 = 0 then k * q
    else (k + 1) * q

/-- The state `reset()` installs. -/
def reset : MancalaGame :=
  { pits := [4, 4, 4, 4, 4, 4, 0, 4, 4, 4, 4, 4, 4, 0]
    currentPlayer := 1
    winner := none
    gameOver := false }

def getPlayerPits (player : Nat) : List Int :=
  if player = 1 then [0, 1, 2, 3, 4, 5] else [7, 8, 9, 10, 11, 12]

def getPlayerStore (player : Nat) : Int := if player = 1 then 6 else 13

def getOpponentStore (player : Nat) : Int := if player = 1 then 13 else 6

def getOppositePit (index : Int) : Int := 12 - index

def isOwnPit (player : Nat) (index : Int) : Bool :=
  if player = 1 then decide (index ≥ 0) && decide (index ≤ 5)
  else decide (index ≥ 7) && decide (index ≤ 12)

/-- A number of iterations within which the sowing loop exits when every decrement
lowers the hand: a deposit lowers `stonesInHand`, a skip is never followed by another
skip. -/
def sowMeasure (currentIndex : Int) (stonesInHand : Nat) (opponentStore : Int) : Nat :=
  2 * stonesInHand + (if (currentIndex + 1) % 14 = opponentStore then 1 else 0)

/-- The `while (stonesInHand > 0)` loop of `makeMove`, run for at most `n`
iterations: the board and `currentIndex` at loop exit, or `none` when the loop has
not exited. -/
def sowLoop : (n : Nat) → (pits : List Nat) → (currentIndex : Int) → (stonesInHand : Nat) →
    (opponentStore : Int) → Option (List Nat × Int)
  | 0, pits, currentIndex, stonesInHand, _ =>
    if stonesInHand > 0 then none else some (pits, currentIndex)
  | n + 1, pits, currentIndex, stonesInHand, opponentStore =>
    if stonesInHand > 0 then
      if (currentIndex + 1) % 14 = opponentStore then
        sowLoop n pits ((currentIndex + 1) % 14) stonesInHand opponentStore
      else
        sowLoop n
          (wr pits ((currentIndex + 1) % 14) (dbl (rd pits ((currentIndex + 1) % 14) + 1)))
          ((currentIndex + 1) % 14) (dbl (stonesInHand - 1)) opponentStore
    else some (pits, currentIndex)

/-- The sowing loop of `makeMove`, given `sowMeasure` iterations. -/
def sow (pits : List Nat) (currentIndex : Int) (stonesInHand : Nat) (opponentStore : Int) :
    Option (List Nat × Int) :=
  sowLoop (sowMeasure currentIndex stonesInHand opponentStore) pits currentIndex stonesInHand
    opponentStore

/-- The state of `makeMove` at the end of the sowing loop: the source pit has
been emptied and its stones sown; the board and the landing index. -/
def sowStage (g : MancalaGame) (pitIndex : Int) : Option (List Nat × Int) :=
  let stones := rd g.pits pitIndex
  sow (wr g.pits pitIndex 0) pitIndex stones (getOpponentStore g.currentPlayer)

/-- The capture block of `makeMove`, on the board left by the sowing loop. -/
def captureStep (player : Nat) (pits : List Nat) (currentIndex : Int) : List Nat :=
  let ownStore := getPlayerStore player
  if isOwnPit player currentIndex && decide (rd pits currentIndex = 1) then
    let oppositeIndex := getOppositePit currentIndex
    if rd pits oppositeIndex > 0 then
      let captured := dbl (rd pits oppositeIndex + 1)
      let pits1 := wr pits ownStore (dbl (rd pits ownStore + captured))
      let pits2 := wr pits1 currentIndex 0
      wr pits2 oppositeIndex 0
    else pits
  else pits

/-- One of the two `for (const i of pNPits)` loops of `checkGameEnd`. -/
def sweep (store : Int) (row : List Int) (pits : List Nat) : List Nat :=
  row.foldl (fun ps i => wr (wr ps store (dbl (rd ps store + rd ps i))) i 0) pits

def checkGameEnd (g : MancalaGame) : MancalaGame :=
  let p1Pits := getPlayerPits 1
  let p2Pits := getPlayerPits 2
  let p1Empty := p1Pits.all (fun i => decide (rd g.pits i = 0))
  let p2Empty := p2Pits.all (fun i => decide (rd g.pits i = 0))
  if p1Empty || p2Empty then
    let pits1 := sweep 6 p1Pits g.pits
    let pits2 := sweep 13 p2Pits pits1
    let winner :=
      if rd pits2 6 > rd pits2 13 then Winner.p1
      else if rd pits2 13 > rd pits2 6 then Winner.p2
      else Winner.draw
    { g with pits := pits2, gameOver := true, winner := some winner }
  else g

/-- The part of `makeMove` after its sowing loop, from the board `pits` and the
landing index `currentIndex` the loop left: capture, `checkGameEnd()` and the turn
switch; the instance after the call. -/
def finishMove (g : MancalaGame) (pits : List Nat) (currentIndex : Int) : MancalaGame :=
  let ownStore := getPlayerStore g.currentPlayer
  let pits1 := captureStep g.currentPlayer pits currentIndex
  let extraTurn := decide (currentIndex = ownStore)
  let g1 := checkGameEnd { g with pits := pits1 }
  if !extraTurn && !g1.gameOver then
    { g1 with currentPlayer := if g1.currentPlayer = 1 then 2 else 1 }
  else g1

/-- The method `makeMove(pitIndex)`: the returned boolean and the instance after
the call, or `none` when the sowing loop does not exit. -/
def makeMove (g : MancalaGame) (pitIndex : Int) : Option (Bool × MancalaGame) :=
  if g.gameOver then some (false, g)
  else if !isOwnPit g.currentPlayer pitIndex then some (false, g)
  else if rd g.pits pitIndex = 0 then some (false, g)
  else
    match sowStage g pitIndex with
    | none => none
    | some sown => some (true, finishMove g sown.1 sown.2)

/-- The plain record `getState()` returns and `loadState(state)` reads. -/
structure GameState where
  pits : List Nat
  currentPlayer : Nat
  winner : Option Winner
  gameOver : Bool
  deriving DecidableEq, Repr

/-- The method `getState()`; the copy `[...this.pits]` has the same elements. -/
def getState (g : MancalaGame) : GameState :=
  { pits := g.pits, currentPlayer := g.currentPlayer, winner := g.winner, gameOver := g.gameOver }

/-- The method `loadState(state)` on instance `g`: all four fields are replaced. -/
def loadState (_g : MancalaGame) (state : GameState) : MancalaGame :=
  { pits := state.pits, currentPlayer := state.currentPlayer, winner := state.winner,
    gameOver := state.gameOver }

/-- States reached from `reset()` by `makeMove` and `reset` calls. -/
inductive Reachable : MancalaGame → Prop where
  | init : Reachable reset
  | move (g : MancalaGame) (pitIndex : Int) (ok : Bool) (g1 : MancalaGame) :
      Reachable g → makeMove g pitIndex = some (ok, g1) → Reachable g1
  | again (g : MancalaGame) : Reachable g → Reachable reset

/-- A rejected call: the three guards of `makeMove`. -/
def rejected (g : MancalaGame) (pitIndex : Int) : Prop :=
  g.gameOver = true ∨ isOwnPit g.currentPlayer pitIndex = false ∨ rd g.pits pitIndex = 0

/-- The indices that follow `p` in increasing order modulo 14, the opponent's
store left out: the order in which the rules deposit stones. -/
def followers (opponentStore p : Int) : List Int :=
  ((List.range 14).map (fun d : Nat => (p + 1 + (d : Int)) % 14)).filter
    (fun i => decide (i ≠ opponentStore))

/-- The index that receives the next stone after `currentIndex`: one or two
iterations of the sowing loop. -/
def nextIndex (opponentStore currentIndex : Int) : Int :=
  if (currentIndex + 1) % 14 = opponentStore then ((currentIndex + 1) % 14 + 1) % 14
  else (currentIndex + 1) % 14

/-- The indices that receive a stone, in order, in `d` deposits after
`currentIndex`. -/
def visits (opponentStore : Int) : Int → Nat → List Int
  | _, 0 => []
  | currentIndex, d + 1 =>
    nextIndex opponentStore currentIndex :: visits opponentStore (nextIndex opponentStore currentIndex) d

/-- The index reached by `d` deposits after `currentIndex`. -/
def landing (opponentStore : Int) : Int → Nat → Int
  | currentIndex, 0 => currentIndex
  | currentIndex, d + 1 => landing opponentStore (nextIndex opponentStore currentIndex) d

/-- The deposit `this.pits[currentIndex]++` applied along a list of indices. -/
def deposit (pits : List Nat) (idxs : List Int) : List Nat :=
  idxs.foldl (fun ps i => wr ps i (dbl (rd ps i + 1))) pits

/-- A sequence of `makeMove` calls, results discarded; `none` when one of them does
not return. -/
def moves (g : MancalaGame) : List Int → Option MancalaGame
  | [] => some g
  | pitIndex :: rest =>
    match makeMove g pitIndex with
    | none => none
    | some r => moves r.2 rest

/-- The two conditions under which the capture block of `makeMove` moves stones
(the branch that logs "Capture!"). -/
def captures (player : Nat) (pits : List Nat) (currentIndex : Int) : Bool :=
  (isOwnPit player currentIndex && decide (rd pits currentIndex = 1)) &&
    decide (rd pits (getOppositePit currentIndex) > 0)

/-- What a call of `handlePitClick` does, in order, to the lock, the game and the
shared channel: `state.isSyncing = b`, `state.game.makeMove(pitIndex)` with its
returned value, `SetPublicSpaceProps` with the record that is serialised, and the
start of `syncVisuals()`. -/
inductive Effect where
  | lock (b : Bool)
  | move (pitIndex : Int) (ok : Bool)
  | publish (data : GameState)
  | visuals
  deriving DecidableEq, Repr

/-- The fields of the module-level `state` the rules and the sync use. -/
structure Coordinator where
  game : MancalaGame
  isSyncing : Bool
  deriving DecidableEq, Repr

/-- The function `syncState()` up to its return: it publishes `getState()` and
starts `syncVisuals()`, whose body past its first `await` runs after the caller has
returned. -/
def syncState (s : Coordinator) : Coordinator × List Effect :=
  let data := getState s.game
  (s, [Effect.publish data, Effect.visuals])

/-- The function `handlePitClick(pitIndex)` up to its return: the coordinator after
the call and what the call did, in order; `none` when its `makeMove` call does not
return. -/
def handlePitClick (s : Coordinator) (pitIndex : Int) : Option (Coordinator × List Effect) :=
  if s.isSyncing then some (s, [])
  else if s.game.gameOver then some (s, [])
  else if !isOwnPit s.game.currentPlayer pitIndex then some (s, [])
  else if rd s.game.pits pitIndex = 0 then some (s, [])
  else
    let s1 : Coordinator := { s with isSyncing := true }
    match makeMove s1.game pitIndex with
    | none => none
    | some r =>
      let s2 : Coordinator := { s1 with game := r.2 }
      if r.1 then
        let out := syncState s2
        some (out.1, [Effect.lock true, Effect.move pitIndex true] ++ out.2)
      else
        some ({ s2 with isSyncing := false },
          [Effect.lock true, Effect.move pitIndex false, Effect.lock false])

/-- The snapshots a call published, in order. -/
def published (effects : List Effect) : List GameState :=
  effects.filterMap (fun e => match e with
    | Effect.publish data => some data
    | _ => none)

/-- The keys of `COLORS` that `syncVisuals` gives a pit. -/
inductive PitColor where
  | pit
  | highlight
  | inactive
  deriving DecidableEq, Repr

/-- The local `isValid` of `syncVisuals` for pit `i`. -/
def isValid (game : MancalaGame) (i : Int) : Bool :=
  let isOwn := isOwnPit game.currentPlayer i
  let hasStones := decide (rd game.pits i > 0)
  !game.gameOver && isOwn && hasStones

/-- The colour `syncVisuals` chooses for index `i` of its loop over `0..13` (the pit
object and its material present); the stores 6 and 13 get none. -/
def pitColor (game : MancalaGame) (i : Int) : Option PitColor :=
  if i ≠ 6 ∧ i ≠ 13 then
    if isValid game i then some PitColor.highlight
    else if !isOwnPit game.currentPlayer i then some PitColor.inactive
    else some PitColor.pit
  else none

/-! ## Array lemmas -/

theorem length_wr (pits : List Nat) (i : Int) (v : Nat) : (wr pits i v).length = pits.length := by
  simp [wr]

theorem rd_wr_same (pits : List Nat) (i : Int) (v : Nat) (h1 : i < pits.length) (h0 : 0 ≤ i) :
    rd (wr pits i v) i = v := by
  have : i.toNat < pits.length := by omega
  simp [rd, wr, List.getElem?_set, this]

theorem rd_wr_ne (pits : List Nat) (i j : Int) (v : Nat) (hi : 0 ≤ i) (hj : 0 ≤ j) (h : i ≠ j) :
    rd (wr pits i v) j = rd pits j := by
  have : i.toNat ≠ j.toNat := by omega
  simp [rd, wr, List.getElem?_set, this]

theorem sum_set_getD (l : List Nat) (n v : Nat) (h : n < l.length) :
    (l.set n v).sum + l.getD n 0 = l.sum + v := by
  induction l generalizing n with
  | nil => simp at h
  | cons a t ih =>
    cases n with
    | zero => simp; omega
    | succ m =>
      have := ih m (by simpa using h)
      simp at this ⊢
      omega

theorem sum_wr (pits : List Nat) (i : Int) (v : Nat) (h0 : 0 ≤ i) (h1 : i < pits.length) :
    (wr pits i v).sum + rd pits i = pits.sum + v := by
  have : i.toNat < pits.length := by omega
  exact sum_set_getD pits i.toNat v this

theorem getD_le_sum (l : List Nat) (n : Nat) : l.getD n 0 ≤ l.sum := by
  induction l generalizing n with
  | nil => simp
  | cons a t ih =>
    cases n with
    | zero => simp
    | succ m =>
      have := ih m
      simp at this ⊢
      omega

theorem rd_le_sum (pits : List Nat) (i : Int) : rd pits i ≤ pits.sum :=
  getD_le_sum pits i.toNat

/-- Two different cells of a board hold no more than the whole board. -/
theorem rd_add_le_sum (pits : List Nat) (i j : Int) (hi : 0 ≤ i) (hj : 0 ≤ j)
    (hl : i < pits.length) (h : i ≠ j) : rd pits i + rd pits j ≤ pits.sum := by
  have e := sum_wr pits i 0 hi hl
  have e2 := rd_le_sum (wr pits i 0) j
  rw [rd_wr_ne _ _ _ _ hi hj h] at e2
  omega

/-! ## Rounding -/

theorem dbl_of_lt {n : Nat} (h : n < 2 ^ 53) : dbl n = n := by
  unfold dbl
  rw [if_pos h]

theorem ulpFrom_spec (n : Nat) : ∀ (fuel q : Nat), 2 ^ 52 * q ≤ n →
    2 ^ 52 * ulpFrom fuel q n ≤ n := by
  intro fuel
  induction fuel with
  | zero => intro q h; exact h
  | succ f ih =>
    intro q h
    unfold ulpFrom
    split
    · exact h
    · rename_i hq
      apply ih
      have hq2 : 2 ^ 53 ≤ n / q := by omega
      have hmul := Nat.div_mul_le_self n q
      have : 2 ^ 53 * q ≤ n / q * q := Nat.mul_le_mul_right q hq2
      omega

theorem ulpFrom_pos (n : Nat) : ∀ (fuel q : Nat), 0 < q → 0 < ulpFrom fuel q n := by
  intro fuel
  induction fuel with
  | zero => intro q h; exact h
  | succ f ih =>
    intro q h
    unfold ulpFrom
    split
    · exact h
    · exact ih _ (by omega)

/-- Rounding never takes a number from `2 ^ 53` on below `2 ^ 53`. -/
theorem dbl_ge {n : Nat} (h : 2 ^ 53 ≤ n) : 2 ^ 53 ≤ dbl n := by
  have hq := ulpFrom_spec n 1024 1 (by omega)
  have hpos := ulpFrom_pos n 1024 1 (by omega)
  have hk : 2 ^ 53 ≤ n / ulpFrom 1024 1 n * ulpFrom 1024 1 n := by
    by_cases h1 : ulpFrom 1024 1 n = 1
    · rw [h1]; simpa using h
    · have h2 : 2 ≤ ulpFrom 1024 1 n := by omega
      have hk52 : 2 ^ 52 ≤ n / ulpFrom 1024 1 n := by
        rw [Nat.le_div_iff_mul_le hpos]
        exact hq
      calc 2 ^ 53 = 2 ^ 52 * 2 := by norm_num
        _ ≤ n / ulpFrom 1024 1 n * ulpFrom 1024 1 n := Nat.mul_le_mul hk52 h2
  have hk1 : n / ulpFrom 1024 1 n * ulpFrom 1024 1 n ≤
      (n / ulpFrom 1024 1 n + 1) * ulpFrom 1024 1 n :=
    Nat.mul_le_mul_right _ (by omega)
  unfold dbl
  rw [if_neg (by omega)]
  dsimp only
  split
  · exact hk
  · split
    · exact le_trans hk hk1
    · split
      · exact hk
      · exact le_trans hk hk1

/-- What an increment leaves is at least 2, or the exact result. -/
theorem dbl_succ_ge (x : Nat) : min 2 (x + 1) ≤ dbl (x + 1) := by
  by_cases h : x + 1 < 2 ^ 53
  · rw [dbl_of_lt h]; omega
  · have := dbl_ge (n := x + 1) (by omega)
    omega

/-! ## Deposits -/

theorem deposit_cons (pits : List Nat) (i : Int) (t : List Int) :
    deposit pits (i :: t) = deposit (wr pits i (dbl (rd pits i + 1))) t := rfl

theorem deposit_length (idxs : List Int) : ∀ pits : List Nat,
    (deposit pits idxs).length = pits.length := by
  induction idxs with
  | nil => intro pits; rfl
  | cons i t ih =>
    intro pits
    rw [deposit_cons, ih, length_wr]

/-- Below `2 ^ 53` every deposit is exact: each index gains one stone per visit. -/
theorem deposit_exact (idxs : List Int) : ∀ (pits : List Nat),
    (∀ i ∈ idxs, 0 ≤ i ∧ i < 14) → pits.length = 14 → pits.sum + idxs.length < 2 ^ 53 →
    (deposit pits idxs).sum = pits.sum + idxs.length ∧
      ∀ j : Int, 0 ≤ j → rd (deposit pits idxs) j = rd pits j + idxs.count j := by
  induction idxs with
  | nil => intro pits _ _ _; exact ⟨rfl, fun j _ => rfl⟩
  | cons i t ih =>
    intro pits hr hl hb
    have hi := hr i (by simp)
    have hle := rd_le_sum pits i
    simp only [List.length_cons] at hb
    have hd : dbl (rd pits i + 1) = rd pits i + 1 := dbl_of_lt (by omega)
    have hsum := sum_wr pits i (rd pits i + 1) hi.1 (by rw [hl]; omega)
    have := ih (wr pits i (rd pits i + 1)) (fun k hk => hr k (by simp [hk]))
      (by rw [length_wr]; exact hl) (by omega)
    rw [deposit_cons, hd]
    refine ⟨?_, fun j hj => ?_⟩
    · rw [this.1]
      simp only [List.length_cons]
      omega
    · rw [this.2 j hj]
      by_cases hij : i = j
      · subst hij
        rw [rd_wr_same _ _ _ (by rw [hl]; omega) hi.1]
        simp
        omega
      · rw [rd_wr_ne _ _ _ _ hi.1 hj hij]
        simp [List.count_cons, hij]

/-- Whatever the counts, an index visited holds at least one stone afterwards, and at
least two when it was visited twice or was not empty. -/
theorem deposit_ge (idxs : List Int) : ∀ (pits : List Nat) (j : Int),
    (∀ i ∈ idxs, 0 ≤ i ∧ i < 14) → pits.length = 14 → 0 ≤ j →
    min 2 (rd pits j + idxs.count j) ≤ rd (deposit pits idxs) j := by
  induction idxs with
  | nil => intro pits j _ _ _; simp [deposit]
  | cons i t ih =>
    intro pits j hr hl hj
    have hi := hr i (by simp)
    have := ih (wr pits i (dbl (rd pits i + 1))) j (fun k hk => hr k (by simp [hk]))
      (by rw [length_wr]; exact hl) hj
    rw [deposit_cons]
    refine le_trans ?_ this
    by_cases hij : i = j
    · subst hij
      rw [rd_wr_same _ _ _ (by rw [hl]; omega) hi.1]
      have hg := dbl_succ_ge (rd pits i)
      simp only [List.count_cons_self]
      omega
    · rw [rd_wr_ne _ _ _ _ hi.1 hj hij]
      simp [List.count_cons, hij]

/-! ## The sowing loop -/

theorem nextIndex_range (opp c : Int) : 0 ≤ nextIndex opp c ∧ nextIndex opp c < 14 := by
  unfold nextIndex
  split <;> omega

theorem visits_range (opp : Int) : ∀ (h : Nat) (c : Int), ∀ i ∈ visits opp c h, 0 ≤ i ∧ i < 14 := by
  intro h
  induction h with
  | zero => intro c i hi; simp [visits] at hi
  | succ h ih =>
    intro c i hi
    simp only [visits, List.mem_cons] at hi
    rcases hi with hi | hi
    · rw [hi]; exact nextIndex_range opp c
    · exact ih _ i hi

theorem visits_length (opp : Int) : ∀ (h : Nat) (c : Int), (visits opp c h).length = h := by
  intro h
  induction h with
  | zero => intro c; rfl
  | succ h ih => intro c; simp [visits, ih]

theorem visits_skip (opp c : Int) (h : Nat) (hs : (c + 1) % 14 = opp) (hpos : h > 0) :
    visits opp ((c + 1) % 14) h = visits opp c h ∧
      landing opp ((c + 1) % 14) h = landing opp c h := by
  obtain ⟨k, rfl⟩ : ∃ k, h = k + 1 := ⟨h - 1, by omega⟩
  have : nextIndex opp ((c + 1) % 14) = nextIndex opp c := by
    unfold nextIndex
    rw [if_pos hs]
    have : ¬ (((c + 1) % 14 + 1) % 14 = opp) := by omega
    rw [if_neg this]
  simp only [visits, landing, this, and_self]

theorem visits_step (opp c : Int) (h : Nat) (hs : ¬ (c + 1) % 14 = opp) (hpos : h > 0) :
    visits opp c h = (c + 1) % 14 :: visits opp ((c + 1) % 14) (h - 1) ∧
      landing opp c h = landing opp ((c + 1) % 14) (h - 1) := by
  obtain ⟨k, rfl⟩ : ∃ k, h = k + 1 := ⟨h - 1, by omega⟩
  have : nextIndex opp c = (c + 1) % 14 := by
    unfold nextIndex
    rw [if_neg hs]
  simp only [visits, landing, this, Nat.add_sub_cancel, and_self]

/-- A hand of at most `2 ^ 53` stones is sown to the end: the loop exits within
`sowMeasure` iterations, having deposited one stone at each index of `visits`, in
order, and stops at `landing`. -/
theorem sowLoop_exact (n : Nat) : ∀ (pits : List Nat) (ci : Int) (h : Nat) (opp : Int),
    h ≤ 2 ^ 53 → sowMeasure ci h opp ≤ n →
    sowLoop n pits ci h opp = some (deposit pits (visits opp ci h), landing opp ci h) := by
  induction n with
  | zero =>
    intro pits ci h opp _ hn
    have : h = 0 := by unfold sowMeasure at hn; omega
    subst this
    rfl
  | succ n ih =>
    intro pits ci h opp hb hn
    unfold sowLoop
    by_cases hpos : h > 0
    · rw [if_pos hpos]
      by_cases hs : (ci + 1) % 14 = opp
      · rw [if_pos hs, ih _ _ _ _ hb (by
          unfold sowMeasure at *; rw [if_pos hs] at hn
          have : ¬ (((ci + 1) % 14 + 1) % 14 = opp) := by omega
          rw [if_neg this]; omega)]
        have := visits_skip opp ci h hs hpos
        rw [this.1, this.2]
      · have hd : dbl (h - 1) = h - 1 := dbl_of_lt (by omega)
        rw [if_neg hs, hd, ih _ _ _ _ (by omega) (by
          unfold sowMeasure at *; rw [if_neg hs] at hn; split <;> omega)]
        have := visits_step opp ci h hs hpos
        rw [this.1, this.2]
        rfl
    · have : h = 0 := by omega
      subst this
      rfl

/-- Whenever the loop exits, it has made some number `d` of deposits along `visits`
and stopped at `landing`; `d` is the hand when the hand is at most `2 ^ 53`, and is
at least `2 ^ 53` otherwise. -/
theorem sowLoop_some (n : Nat) : ∀ (pits : List Nat) (ci : Int) (h : Nat) (opp : Int)
    (r : List Nat × Int), sowLoop n pits ci h opp = some r →
    ∃ d : Nat, r = (deposit pits (visits opp ci d), landing opp ci d) ∧
      (h ≤ 2 ^ 53 → d = h) ∧ (2 ^ 53 ≤ h → 2 ^ 53 ≤ d) := by
  induction n with
  | zero =>
    intro pits ci h opp r hr
    unfold sowLoop at hr
    by_cases hpos : h > 0
    · rw [if_pos hpos] at hr
      exact absurd hr (by simp)
    · rw [if_neg hpos] at hr
      refine ⟨0, ?_, fun _ => by omega, fun _ => by omega⟩
      simp only [Option.some.injEq] at hr
      rw [← hr]
      rfl
  | succ n ih =>
    intro pits ci h opp r hr
    unfold sowLoop at hr
    by_cases hpos : h > 0
    · rw [if_pos hpos] at hr
      by_cases hs : (ci + 1) % 14 = opp
      · rw [if_pos hs] at hr
        obtain ⟨d, hd, h1, h2⟩ := ih _ _ _ _ _ hr
        have hdpos : d > 0 := by
          by_cases hb : h ≤ 2 ^ 53
          · have := h1 hb; omega
          · have := h2 (by omega); omega
        have := visits_skip opp ci d hs hdpos
        exact ⟨d, by rw [hd, this.1, this.2], h1, h2⟩
      · rw [if_neg hs] at hr
        obtain ⟨d, hd, h1, h2⟩ := ih _ _ _ _ _ hr
        have := visits_step opp ci (d + 1) hs (by omega)
        refine ⟨d + 1, ?_, ?_, ?_⟩
        · rw [hd, this.1, this.2]
          rfl
        · intro hb
          have hx : dbl (h - 1) = h - 1 := dbl_of_lt (by omega)
          rw [hx] at h1
          have := h1 (by omega)
          omega
        · intro hb
          by_cases he : h = 2 ^ 53
          · have hx : dbl (h - 1) = h - 1 := dbl_of_lt (by omega)
            rw [hx] at h1
            have := h1 (by omega)
            omega
          · have hx := dbl_ge (n := h - 1) (by omega)
            have := h2 hx
            omega
    · rw [if_neg hpos] at hr
      refine ⟨0, ?_, fun _ => by omega, fun _ => by omega⟩
      simp only [Option.some.injEq] at hr
      rw [← hr]
      rfl

/-- A hand whose decrement is lost to rounding is never lowered: the loop exits
within no number of iterations. -/
theorem sowLoop_stuck (h : Nat) (opp : Int) (hpos : 0 < h) (hstuck : dbl (h - 1) = h) :
    ∀ (n : Nat) (pits : List Nat) (ci : Int), sowLoop n pits ci h opp = none := by
  intro n
  induction n with
  | zero =>
    intro pits ci
    unfold sowLoop
    rw [if_pos hpos]
  | succ n ih =>
    intro pits ci
    unfold sowLoop
    rw [if_pos hpos, hstuck]
    split
    · exact ih _ _
    · exact ih _ _

/-- More iterations do not change what the loop exits with. -/
theorem sowLoop_mono (n : Nat) : ∀ (pits : List Nat) (ci : Int) (h : Nat) (opp : Int)
    (r : List Nat × Int), sowLoop n pits ci h opp = some r →
    sowLoop (n + 1) pits ci h opp = some r := by
  induction n with
  | zero =>
    intro pits ci h opp r hr
    unfold sowLoop at hr ⊢
    by_cases hpos : h > 0
    · rw [if_pos hpos] at hr
      exact absurd hr (by simp)
    · rw [if_neg hpos] at hr ⊢
      exact hr
  | succ n ih =>
    intro pits ci h opp r hr
    rw [sowLoop] at hr
    rw [sowLoop]
    by_cases hpos : h > 0
    · rw [if_pos hpos] at hr ⊢
      by_cases hs : (ci + 1) % 14 = opp
      · rw [if_pos hs] at hr ⊢
        exact ih _ _ _ _ _ hr
      · rw [if_neg hs] at hr ⊢
        exact ih _ _ _ _ _ hr
    · rw [if_neg hpos] at hr ⊢
      exact hr

/-! ## Stages of `makeMove` -/

theorem isOwnPit_range {player : Nat} {index : Int} (h : isOwnPit player index = true) :
    0 ≤ index ∧ index ≤ 12 ∧ index ≠ 6 ∧ index ≠ getPlayerStore player ∧
      index ≠ getOpponentStore player := by
  unfold isOwnPit at h
  unfold getPlayerStore getOpponentStore
  split at h <;> simp at h <;> simp [*] <;> omega

theorem own_pit_cases {player : Nat} {p : Int} (h : isOwnPit player p = true) :
    (getOpponentStore player = 13 ∧ 0 ≤ p ∧ p ≤ 5) ∨
      (getOpponentStore player = 6 ∧ 7 ≤ p ∧ p ≤ 12) := by
  unfold isOwnPit at h
  unfold getOpponentStore
  split at h <;> simp at h <;> simp [*]

theorem getPlayerPits_range (player : Nat) :
    ∀ i ∈ getPlayerPits player, 0 ≤ i ∧ i < 14 ∧ i ≠ 6 ∧ i ≠ 13 := by
  intro i hi
  unfold getPlayerPits at hi
  split at hi <;> simp at hi <;> omega

theorem playerStore_cases (player : Nat) :
    getPlayerStore player = 6 ∨ getPlayerStore player = 13 := by
  unfold getPlayerStore; split <;> simp

/-- Whenever the sowing loop of `makeMove` exits, it has made some number `d` of
deposits after the pit played; `d` is the number of stones of the pit when that is at
most `2 ^ 53`, and is at least `2 ^ 53` otherwise. -/
theorem sowStage_some (g : MancalaGame) (p : Int) (B : List Nat) (L : Int)
    (h : sowStage g p = some (B, L)) :
    ∃ d : Nat,
      B = deposit (wr g.pits p 0) (visits (getOpponentStore g.currentPlayer) p d) ∧
      L = landing (getOpponentStore g.currentPlayer) p d ∧
      (rd g.pits p ≤ 2 ^ 53 → d = rd g.pits p) ∧ (2 ^ 53 ≤ rd g.pits p → 2 ^ 53 ≤ d) := by
  unfold sowStage sow at h
  obtain ⟨d, hd, h1, h2⟩ := sowLoop_some _ _ _ _ _ _ h
  simp only [Prod.mk.injEq] at hd
  exact ⟨d, hd.1, hd.2, h1, h2⟩

/-- A pit of at most `2 ^ 53` stones is sown to the end. -/
theorem sowStage_exits (g : MancalaGame) (p : Int) (hb : rd g.pits p ≤ 2 ^ 53) :
    sowStage g p =
      some (deposit (wr g.pits p 0)
          (visits (getOpponentStore g.currentPlayer) p (rd g.pits p)),
        landing (getOpponentStore g.currentPlayer) p (rd g.pits p)) := by
  unfold sowStage sow
  exact sowLoop_exact _ _ _ _ _ hb (Nat.le_refl _)

/-- On a board summing to less than `2 ^ 53` the sowing is exact: every index gains
one stone per visit and the board keeps its sum. -/
theorem sowStage_exact (g : MancalaGame) (p : Int) (hl : g.pits.length = 14)
    (hb : g.pits.sum < 2 ^ 53) (hown : isOwnPit g.currentPlayer p = true) :
    ∃ (B : List Nat) (L : Int), sowStage g p = some (B, L) ∧
      L = landing (getOpponentStore g.currentPlayer) p (rd g.pits p) ∧
      B.sum = g.pits.sum ∧ B.length = 14 ∧
      ∀ j : Int, 0 ≤ j → rd B j = rd (wr g.pits p 0) j +
        (visits (getOpponentStore g.currentPlayer) p (rd g.pits p)).count j := by
  have hr := isOwnPit_range hown
  have hle := rd_le_sum g.pits p
  have hl0 : (wr g.pits p 0).length = 14 := by rw [length_wr]; exact hl
  have hs0 := sum_wr g.pits p 0 hr.1 (by rw [hl]; omega)
  have hdep := deposit_exact (visits (getOpponentStore g.currentPlayer) p (rd g.pits p))
    (wr g.pits p 0) (visits_range _ _ _) hl0 (by rw [visits_length]; omega)
  refine ⟨_, _, sowStage_exits g p (by omega), rfl, ?_, ?_, hdep.2⟩
  · rw [hdep.1, visits_length]
    omega
  · rw [deposit_length, hl0]

theorem captureStep_length (player : Nat) (pits : List Nat) (ci : Int) :
    (captureStep player pits ci).length = pits.length := by
  unfold captureStep
  simp only []
  split
  · split
    · simp [length_wr]
    · rfl
  · rfl

theorem captureStep_idle (player : Nat) (pits : List Nat) (L : Int)
    (h : ¬ (isOwnPit player L = true ∧ rd pits L = 1 ∧ 0 < rd pits (12 - L))) :
    captureStep player pits L = pits := by
  unfold captureStep getOppositePit
  simp only []
  split
  · rename_i hc
    simp only [Bool.and_eq_true, decide_eq_true_eq] at hc
    split
    · rename_i hp
      exact absurd ⟨hc.1, hc.2, hp⟩ h
    · rfl
  · rfl

/-- The capture block when it fires, as the source computes it. -/
theorem captureStep_form (player : Nat) (pits : List Nat) (L : Int)
    (hown : isOwnPit player L = true) (hone : rd pits L = 1) (hopp : 0 < rd pits (12 - L)) :
    captureStep player pits L =
      wr (wr (wr pits (getPlayerStore player)
        (dbl (rd pits (getPlayerStore player) + dbl (rd pits (12 - L) + 1)))) L 0)
        (12 - L) 0 := by
  unfold captureStep getOppositePit
  simp only [hown, hone, hopp, decide_True, Bool.and_self, ↓reduceIte, gt_iff_lt]

/-- Three different cells of a board hold no more than the whole board. -/
theorem rd3_le_sum (pits : List Nat) (i j k : Int) (hi : 0 ≤ i) (hj : 0 ≤ j) (hk : 0 ≤ k)
    (hil : i < pits.length) (hjl : j < pits.length) (hij : i ≠ j) (hik : i ≠ k)
    (hjk : j ≠ k) : rd pits i + rd pits j + rd pits k ≤ pits.sum := by
  have e1 := sum_wr pits i 0 hi hil
  have e2 := sum_wr (wr pits i 0) j 0 hj (by rw [length_wr]; exact hjl)
  have e3 := rd_le_sum (wr (wr pits i 0) j 0) k
  rw [rd_wr_ne _ _ _ _ hj hk hjk, rd_wr_ne _ _ _ _ hi hk hik] at e3
  rw [rd_wr_ne _ _ _ _ hi hj hij] at e2
  omega

/-- On a board summing to less than `2 ^ 53` the capture is exact. -/
theorem captureStep_fire (player : Nat) (pits : List Nat) (L : Int) (hl : pits.length = 14)
    (hb : pits.sum < 2 ^ 53)
    (hown : isOwnPit player L = true) (hone : rd pits L = 1) (hopp : 0 < rd pits (12 - L)) :
    rd (captureStep player pits L) (getPlayerStore player) =
      rd pits (getPlayerStore player) + (rd pits (12 - L) + 1) ∧
    rd (captureStep player pits L) L = 0 ∧
    rd (captureStep player pits L) (12 - L) = 0 ∧
    (∀ i : Int, 0 ≤ i → i ≠ getPlayerStore player → i ≠ L → i ≠ 12 - L →
      rd (captureStep player pits L) i = rd pits i) ∧
    (captureStep player pits L).sum = pits.sum := by
  have hr := isOwnPit_range hown
  have hst := playerStore_cases player
  have hst0 : 0 ≤ getPlayerStore player := by omega
  have h3 := rd3_le_sum pits (getPlayerStore player) L (12 - L) hst0 hr.1 (by omega)
    (by rw [hl]; omega) (by rw [hl]; omega) (by omega) (by omega) (by omega)
  have hd1 : dbl (rd pits (12 - L) + 1) = rd pits (12 - L) + 1 := dbl_of_lt (by omega)
  have hd2 : dbl (rd pits (getPlayerStore player) + (rd pits (12 - L) + 1)) =
      rd pits (getPlayerStore player) + (rd pits (12 - L) + 1) := dbl_of_lt (by omega)
  rw [captureStep_form player pits L hown hone hopp, hd1, hd2]
  refine ⟨?_, ?_, ?_, ?_, ?_⟩
  · rw [rd_wr_ne _ _ _ _ (by omega) hst0 (by omega), rd_wr_ne _ _ _ _ hr.1 hst0 (by omega),
      rd_wr_same _ _ _ (by rw [hl]; omega) hst0]
  · rw [rd_wr_ne _ _ _ _ (by omega) hr.1 (by omega),
      rd_wr_same _ _ _ (by rw [length_wr, hl]; omega) hr.1]
  · rw [rd_wr_same _ _ _ (by rw [length_wr, length_wr, hl]; omega) (by omega)]
  · intro i hi h1 h2 h3
    rw [rd_wr_ne _ _ _ _ (by omega) hi (fun h => h3 h.symm),
      rd_wr_ne _ _ _ _ hr.1 hi (fun h => h2 h.symm),
      rd_wr_ne _ _ _ _ hst0 hi (fun h => h1 h.symm)]
  · have e1 := sum_wr pits (getPlayerStore player)
      (rd pits (getPlayerStore player) + (rd pits (12 - L) + 1)) hst0 (by rw [hl]; omega)
    have e2 := sum_wr
      (wr pits (getPlayerStore player)
        (rd pits (getPlayerStore player) + (rd pits (12 - L) + 1))) L 0 hr.1
      (by rw [length_wr, hl]; omega)
    have e3 := sum_wr
      (wr (wr pits (getPlayerStore player)
        (rd pits (getPlayerStore player) + (rd pits (12 - L) + 1))) L 0)
      (12 - L) 0 (by omega) (by rw [length_wr, length_wr, hl]; omega)
    rw [rd_wr_ne _ _ _ _ hr.1 (by omega) (by omega),
      rd_wr_ne _ _ _ _ hst0 (by omega) (by omega)] at e3
    rw [rd_wr_ne _ _ _ _ hst0 hr.1 (by omega)] at e2
    omega

theorem captureStep_sum (player : Nat) (pits : List Nat) (ci : Int) (hl : pits.length = 14)
    (hb : pits.sum < 2 ^ 53) : (captureStep player pits ci).sum = pits.sum := by
  by_cases h : isOwnPit player ci = true ∧ rd pits ci = 1 ∧ 0 < rd pits (12 - ci)
  · exact (captureStep_fire player pits ci hl hb h.1 h.2.1 h.2.2).2.2.2.2
  · rw [captureStep_idle player pits ci h]

/-- On a board summing to less than `2 ^ 53` the sweep of a row is exact. -/
theorem sweep_exact (store : Int) (hs0 : 0 ≤ store) (hs1 : store < 14) :
    ∀ (row : List Int) (pits : List Nat), (∀ i ∈ row, 0 ≤ i ∧ i < 14 ∧ i ≠ store) →
      pits.length = 14 → pits.sum < 2 ^ 53 →
      sweep store row pits =
          row.foldl (fun ps i => wr (wr ps store (rd ps store + rd ps i)) i 0) pits ∧
        (sweep store row pits).sum = pits.sum ∧ (sweep store row pits).length = 14 := by
  intro row
  induction row with
  | nil => intro pits _ hl _; exact ⟨rfl, rfl, hl⟩
  | cons i t ih =>
    intro pits hrow hl hb
    have hi := hrow i (by simp)
    have h2 := rd_add_le_sum pits store i hs0 hi.1 (by rw [hl]; omega) (by omega)
    have hd : dbl (rd pits store + rd pits i) = rd pits store + rd pits i :=
      dbl_of_lt (by omega)
    have hstep : sweep store (i :: t) pits =
        sweep store t (wr (wr pits store (rd pits store + rd pits i)) i 0) := by
      simp only [sweep, List.foldl_cons, hd]
    have e1 := sum_wr pits store (rd pits store + rd pits i) hs0 (by rw [hl]; omega)
    have e2 := sum_wr (wr pits store (rd pits store + rd pits i)) i 0 hi.1
      (by rw [length_wr, hl]; omega)
    rw [rd_wr_ne _ _ _ _ hs0 hi.1 (by omega)] at e2
    have := ih (wr (wr pits store (rd pits store + rd pits i)) i 0)
      (fun j hj => hrow j (by simp [hj])) (by rw [length_wr, length_wr, hl]) (by omega)
    rw [hstep]
    refine ⟨?_, ?_, this.2.2⟩
    · rw [this.1]
      rfl
    · rw [this.2.1]
      omega

/-! ## End of game -/

/-- The test `p1Empty || p2Empty` of `checkGameEnd`. -/
theorem checkGameEnd_eq (g : MancalaGame) :
    checkGameEnd g =
      if ((getPlayerPits 1).all (fun i => decide (rd g.pits i = 0)) ||
          (getPlayerPits 2).all (fun i => decide (rd g.pits i = 0))) = true then
        { g with
          pits := sweep 13 (getPlayerPits 2) (sweep 6 (getPlayerPits 1) g.pits)
          gameOver := true
          winner := some
            (if rd (sweep 13 (getPlayerPits 2) (sweep 6 (getPlayerPits 1) g.pits)) 6 >
                rd (sweep 13 (getPlayerPits 2) (sweep 6 (getPlayerPits 1) g.pits)) 13 then
              Winner.p1
            else if rd (sweep 13 (getPlayerPits 2) (sweep 6 (getPlayerPits 1) g.pits)) 13 >
                rd (sweep 13 (getPlayerPits 2) (sweep 6 (getPlayerPits 1) g.pits)) 6 then
              Winner.p2
            else Winner.draw) }
      else g := by
  rfl

theorem checkGameEnd_currentPlayer (g : MancalaGame) :
    (checkGameEnd g).currentPlayer = g.currentPlayer := by
  rw [checkGameEnd_eq]
  split <;> rfl

theorem list14 (l : List Nat) (h : l.length = 14) :
    ∃ a0 a1 a2 a3 a4 a5 a6 a7 a8 a9 a10 a11 a12 a13,
      l = [a0, a1, a2, a3, a4, a5, a6, a7, a8, a9, a10, a11, a12, a13] := by
  match l, h with
  | [a0, a1, a2, a3, a4, a5, a6, a7, a8, a9, a10, a11, a12, a13], _ =>
    exact ⟨a0, a1, a2, a3, a4, a5, a6, a7, a8, a9, a10, a11, a12, a13, rfl⟩

theorem rowsEmpty_iff (pits : List Nat) :
    ((getPlayerPits 1).all (fun i => decide (rd pits i = 0)) ||
        (getPlayerPits 2).all (fun i => decide (rd pits i = 0))) = true ↔
      ((∀ i : Int, 0 ≤ i → i ≤ 5 → rd pits i = 0) ∨
        (∀ i : Int, 7 ≤ i → i ≤ 12 → rd pits i = 0)) := by
  simp only [getPlayerPits, Bool.or_eq_true, List.all_eq_true, decide_eq_true_eq]
  constructor
  · rintro (h | h)
    · left
      intro i h0 h1
      apply h
      interval_cases i <;> simp
    · right
      intro i h0 h1
      apply h
      interval_cases i <;> simp
  · rintro (h | h)
    · left
      intro i hi
      simp at hi
      apply h <;> omega
    · right
      intro i hi
      simp at hi
      apply h <;> omega

/-- Both sweeps of `checkGameEnd` on a board summing to less than `2 ^ 53`. -/
theorem sweeps_exact (pits : List Nat) (hl : pits.length = 14) (hb : pits.sum < 2 ^ 53) :
    sweep 13 (getPlayerPits 2) (sweep 6 (getPlayerPits 1) pits) =
        (getPlayerPits 2).foldl (fun ps i => wr (wr ps 13 (rd ps 13 + rd ps i)) i 0)
          ((getPlayerPits 1).foldl (fun ps i => wr (wr ps 6 (rd ps 6 + rd ps i)) i 0) pits) ∧
      (sweep 13 (getPlayerPits 2) (sweep 6 (getPlayerPits 1) pits)).sum = pits.sum ∧
      (sweep 13 (getPlayerPits 2) (sweep 6 (getPlayerPits 1) pits)).length = 14 := by
  have h1 := sweep_exact 6 (by omega) (by omega) (getPlayerPits 1) pits
    (fun i hi => by have := getPlayerPits_range 1 i hi; omega) hl hb
  have h2 := sweep_exact 13 (by omega) (by omega) (getPlayerPits 2)
    (sweep 6 (getPlayerPits 1) pits)
    (fun i hi => by have := getPlayerPits_range 2 i hi; omega) h1.2.2 (by rw [h1.2.1]; exact hb)
  refine ⟨?_, ?_, h2.2.2⟩
  · rw [h2.1, h1.1]
  · rw [h2.2.1, h1.2.1]

theorem checkGameEnd_sum (g : MancalaGame) (hl : g.pits.length = 14)
    (hb : g.pits.sum < 2 ^ 53) :
    (checkGameEnd g).pits.sum = g.pits.sum ∧ (checkGameEnd g).pits.length = 14 := by
  have h := sweeps_exact g.pits hl hb
  rw [checkGameEnd_eq]
  split
  · dsimp only
    exact ⟨h.2.1, h.2.2⟩
  · exact ⟨rfl, hl⟩

set_option maxHeartbeats 1000000 in
/-- The end of the game on a board summing to less than `2 ^ 53`, in closed form. -/
theorem checkGameEnd_fire (g : MancalaGame) (hl : g.pits.length = 14)
    (hb : g.pits.sum < 2 ^ 53)
    (h : (∀ i : Int, 0 ≤ i → i ≤ 5 → rd g.pits i = 0) ∨
      (∀ i : Int, 7 ≤ i → i ≤ 12 → rd g.pits i = 0)) :
    checkGameEnd g =
      { g with
        pits := [0, 0, 0, 0, 0, 0,
          rd g.pits 6 + (rd g.pits 0 + rd g.pits 1 + rd g.pits 2 + rd g.pits 3 + rd g.pits 4 +
            rd g.pits 5),
          0, 0, 0, 0, 0, 0,
          rd g.pits 13 + (rd g.pits 7 + rd g.pits 8 + rd g.pits 9 + rd g.pits 10 + rd g.pits 11 +
            rd g.pits 12)]
        gameOver := true
        winner := some
          (if rd g.pits 6 + (rd g.pits 0 + rd g.pits 1 + rd g.pits 2 + rd g.pits 3 +
                rd g.pits 4 + rd g.pits 5) >
              rd g.pits 13 + (rd g.pits 7 + rd g.pits 8 + rd g.pits 9 + rd g.pits 10 +
                rd g.pits 11 + rd g.pits 12) then Winner.p1
           else if rd g.pits 13 + (rd g.pits 7 + rd g.pits 8 + rd g.pits 9 + rd g.pits 10 +
                rd g.pits 11 + rd g.pits 12) >
              rd g.pits 6 + (rd g.pits 0 + rd g.pits 1 + rd g.pits 2 + rd g.pits 3 +
                rd g.pits 4 + rd g.pits 5) then Winner.p2
           else Winner.draw) } := by
  have hcond := (rowsEmpty_iff g.pits).2 h
  have hex := (sweeps_exact g.pits hl hb).1
  obtain ⟨pits, cp, w, go⟩ := g
  obtain ⟨a0, a1, a2, a3, a4, a5, a6, a7, a8, a9, a10, a11, a12, a13, rfl⟩ := list14 pits hl
  rw [checkGameEnd_eq]
  dsimp only at hcond hex ⊢
  rw [if_pos hcond]
  have hsw : sweep 13 (getPlayerPits 2) (sweep 6 (getPlayerPits 1)
      [a0, a1, a2, a3, a4, a5, a6, a7, a8, a9, a10, a11, a12, a13]) =
      [0, 0, 0, 0, 0, 0, a6 + a0 + a1 + a2 + a3 + a4 + a5, 0, 0, 0, 0, 0, 0,
        a13 + a7 + a8 + a9 + a10 + a11 + a12] := by
    rw [hex]
    simp [getPlayerPits, wr, rd]
  rw [hsw]
  simp [rd, Nat.add_assoc]

theorem checkGameEnd_idle (g : MancalaGame)
    (h : ¬ ((∀ i : Int, 0 ≤ i → i ≤ 5 → rd g.pits i = 0) ∨
      (∀ i : Int, 7 ≤ i → i ≤ 12 → rd g.pits i = 0))) :
    checkGameEnd g = g := by
  rw [checkGameEnd_eq, if_neg (fun hc => h ((rowsEmpty_iff g.pits).1 hc))]

/-! ## Returned values of `makeMove` -/

theorem makeMove_rejected (g : MancalaGame) (pitIndex : Int) (h : rejected g pitIndex) :
    makeMove g pitIndex = some (false, g) := by
  unfold makeMove
  rcases h with h | h | h
  · simp [h]
  · simp [h]
  · simp [h]

theorem accepted_own {g : MancalaGame} {pitIndex : Int} (h : ¬ rejected g pitIndex) :
    g.gameOver = false ∧ isOwnPit g.currentPlayer pitIndex = true ∧ rd g.pits pitIndex ≠ 0 := by
  unfold rejected at h
  simp only [not_or] at h
  exact ⟨by simpa using h.1, by simpa using h.2.1, h.2.2⟩

theorem makeMove_accepted (g : MancalaGame) (pitIndex : Int) (h : ¬ rejected g pitIndex) :
    makeMove g pitIndex =
      (sowStage g pitIndex).map (fun sown => (true, finishMove g sown.1 sown.2)) := by
  obtain ⟨h1, h2, h3⟩ := accepted_own h
  unfold makeMove
  simp only [h1, h2, h3, Bool.false_eq_true, ↓reduceIte, Bool.not_true]
  cases sowStage g pitIndex <;> rfl

theorem makeMove_true_inv (g : MancalaGame) (p : Int) (r : MancalaGame)
    (h : makeMove g p = some (true, r)) :
    ¬ rejected g p ∧ ∃ (B : List Nat) (L : Int), sowStage g p = some (B, L) ∧
      r = finishMove g B L := by
  have hacc : ¬ rejected g p := by
    intro hr
    rw [makeMove_rejected g p hr] at h
    simp at h
  refine ⟨hacc, ?_⟩
  rw [makeMove_accepted g p hacc] at h
  cases hs : sowStage g p with
  | none => rw [hs] at h; simp at h
  | some sown =>
    rw [hs] at h
    simp only [Option.map_some', Option.some.injEq, Prod.mk.injEq, true_and] at h
    exact ⟨sown.1, sown.2, rfl, h.symm⟩

theorem makeMove_false_inv (g : MancalaGame) (p : Int) (r : MancalaGame)
    (h : makeMove g p = some (false, r)) : rejected g p ∧ r = g := by
  by_cases hr : rejected g p
  · rw [makeMove_rejected g p hr] at h
    simp only [Option.some.injEq, Prod.mk.injEq, true_and] at h
    exact ⟨hr, h.symm⟩
  · rw [makeMove_accepted g p hr] at h
    cases hs : sowStage g p with
    | none => rw [hs] at h; simp at h
    | some sown => rw [hs] at h; simp at h

/-- The fields `makeMove` leaves after a successful call: those of the instance after
`checkGameEnd()`, with `currentPlayer` switched or not. -/
theorem finishMove_fields (g : MancalaGame) (B : List Nat) (L : Int) :
    (finishMove g B L).pits =
        (checkGameEnd { g with pits := captureStep g.currentPlayer B L }).pits ∧
      (finishMove g B L).winner =
        (checkGameEnd { g with pits := captureStep g.currentPlayer B L }).winner ∧
      (finishMove g B L).gameOver =
        (checkGameEnd { g with pits := captureStep g.currentPlayer B L }).gameOver ∧
      (finishMove g B L).currentPlayer =
        if L ≠ getPlayerStore g.currentPlayer ∧
            (checkGameEnd { g with pits := captureStep g.currentPlayer B L }).gameOver = false
        then (if g.currentPlayer = 1 then 2 else 1) else g.currentPlayer := by
  have hcp := checkGameEnd_currentPlayer { g with pits := captureStep g.currentPlayer B L }
  unfold finishMove
  dsimp only at hcp ⊢
  by_cases hx : L = getPlayerStore g.currentPlayer
  · subst hx
    simp [hcp]
  · by_cases hg : (checkGameEnd
        { g with pits := captureStep g.currentPlayer B L }).gameOver = true
    · simp [hx, hg, hcp]
    · simp [hx, hg, hcp]

/-! ## One lap of the board -/

theorem visits_add (opp : Int) : ∀ (a b : Nat) (c : Int),
    visits opp c (a + b) = visits opp c a ++ visits opp (landing opp c a) b ∧
      landing opp c (a + b) = landing opp (landing opp c a) b := by
  intro a
  induction a with
  | zero => intro b c; simp [visits, landing]
  | succ a ih =>
    intro b c
    have : a + 1 + b = (a + b) + 1 := by omega
    rw [this]
    simp only [visits, landing, List.cons_append, List.cons.injEq, true_and]
    exact ih b _

theorem visits_getLast (opp : Int) : ∀ (h : Nat) (c : Int),
    (visits opp c (h + 1)).getLast? = some (landing opp c (h + 1)) := by
  intro h
  induction h with
  | zero => intro c; simp [visits, landing]
  | succ h ih =>
    intro c
    have := ih (nextIndex opp c)
    rw [visits, landing]
    rw [← this]
    simp [visits]

theorem not_mem_followers (opp p : Int) : opp ∉ followers opp p := by
  simp [followers]

theorem mem_indices (j : Int) (h0 : 0 ≤ j) (h1 : j < 14) :
    j ∈ ([0, 1, 2, 3, 4, 5, 6, 7, 8, 9, 10, 11, 12, 13] : List Int) := by
  interval_cases j <;> simp

/-- One lap: from an own pit, 13 deposits visit every index but the opponent's
store exactly once, in the order of `followers`, and come back to the pit. -/
theorem lap_facts (opp c : Int)
    (hc : (opp = 13 ∧ 0 ≤ c ∧ c ≤ 5) ∨ (opp = 6 ∧ 7 ≤ c ∧ c ≤ 12)) :
    landing opp c 13 = c ∧ visits opp c 13 = followers opp c ∧ (followers opp c).Nodup ∧
      ∀ j ∈ ([0, 1, 2, 3, 4, 5, 6, 7, 8, 9, 10, 11, 12, 13] : List Int),
        j ≠ opp → j ∈ followers opp c := by
  rcases hc with ⟨rfl, h0, h1⟩ | ⟨rfl, h0, h1⟩
  · interval_cases c <;> decide
  · interval_cases c <;> decide

/-- The pit played is the last index of its lap, not one of the first twelve. -/
theorem lap_last (opp c : Int)
    (hc : (opp = 13 ∧ 0 ≤ c ∧ c ≤ 5) ∨ (opp = 6 ∧ 7 ≤ c ∧ c ≤ 12)) :
    c ∉ (followers opp c).take 12 := by
  rcases hc with ⟨rfl, h0, h1⟩ | ⟨rfl, h0, h1⟩
  · interval_cases c <;> decide
  · interval_cases c <;> decide

theorem visits_laps (opp c : Int) (hlap : landing opp c 13 = c) (r : Nat) : ∀ q : Nat,
    landing opp c (13 * q + r) = landing opp c r ∧
      ∀ j : Int, (visits opp c (13 * q + r)).count j =
        q * (visits opp c 13).count j + (visits opp c r).count j := by
  intro q
  induction q with
  | zero => simp
  | succ q ih =>
    have e : 13 * (q + 1) + r = 13 + (13 * q + r) := by omega
    rw [e]
    have := visits_add opp 13 (13 * q + r) c
    rw [this.1, this.2, hlap]
    refine ⟨ih.1, fun j => ?_⟩
    rw [List.count_append, ih.2 j, Nat.succ_mul]
    omega

theorem visits_take (opp c : Int) (r : Nat) (hr : r ≤ 13) :
    visits opp c r = (visits opp c 13).take r := by
  have e : 13 = r + (13 - r) := by omega
  have := (visits_add opp r (13 - r) c).1
  rw [← e] at this
  rw [this, List.take_left' (visits_length opp r c)]

/-- Number of stones each index receives when `s` stones are sown from own pit
`c`, and where the last one lands. -/
theorem visits_count (opp c : Int)
    (hc : (opp = 13 ∧ 0 ≤ c ∧ c ≤ 5) ∨ (opp = 6 ∧ 7 ≤ c ∧ c ≤ 12)) (s : Nat) :
    (∀ j : Int, 0 ≤ j → j < 14 → j ≠ opp →
      (visits opp c s).count j =
        s / 13 + (if j ∈ (followers opp c).take (s % 13) then 1 else 0)) ∧
    (visits opp c s).count opp = 0 ∧
    (1 ≤ s → ((followers opp c).take ((s - 1) % 13 + 1)).getLast? = some (landing opp c s)) := by
  obtain ⟨hlap, hvis, hnd, hmem⟩ := lap_facts opp c hc
  have hs : s = 13 * (s / 13) + s % 13 := (Nat.div_add_mod s 13).symm
  have hlaps := visits_laps opp c hlap (s % 13) (s / 13)
  rw [← hs] at hlaps
  have htake := visits_take opp c (s % 13) (by omega)
  rw [hvis] at htake
  have hcount : ∀ j : Int, (visits opp c s).count j =
      s / 13 * (followers opp c).count j + ((followers opp c).take (s % 13)).count j := by
    intro j
    rw [hlaps.2 j, hvis, htake]
  refine ⟨?_, ?_, ?_⟩
  · intro j h0 h1 hne
    have hj : j ∈ followers opp c := hmem j (mem_indices j h0 h1) hne
    rw [hcount j, List.count_eq_of_nodup hnd, if_pos hj,
      List.count_eq_of_nodup (hnd.sublist (List.take_sublist _ _))]
    omega
  · have hn := not_mem_followers opp c
    have hn2 : opp ∉ (followers opp c).take (s % 13) := fun h => hn (List.mem_of_mem_take h)
    rw [hcount opp, List.count_eq_zero_of_not_mem hn, List.count_eq_zero_of_not_mem hn2]
    simp
  · intro h1
    have hs1 : s = 13 * ((s - 1) / 13) + ((s - 1) % 13 + 1) := by omega
    have hl := (visits_laps opp c hlap ((s - 1) % 13 + 1) ((s - 1) / 13)).1
    rw [← hs1] at hl
    have ht := visits_take opp c ((s - 1) % 13 + 1) (by omega)
    rw [hvis] at ht
    rw [← ht, visits_getLast, hl]

/-! ## Conservation of stones -/

theorem finishMove_sum (g : MancalaGame) (B : List Nat) (L : Int) (hl : B.length = 14)
    (hb : B.sum < 2 ^ 53) :
    (finishMove g B L).pits.sum = B.sum ∧ (finishMove g B L).pits.length = 14 := by
  have hc := captureStep_sum g.currentPlayer B L hl hb
  have hcl := captureStep_length g.currentPlayer B L
  have he := checkGameEnd_sum { g with pits := captureStep g.currentPlayer B L }
    (by dsimp only; rw [hcl]; exact hl) (by dsimp only; rw [hc]; exact hb)
  dsimp only at he
  rw [(finishMove_fields g B L).1]
  exact ⟨by rw [he.1, hc], he.2⟩

theorem makeMove_sum_length (g : MancalaGame) (pitIndex : Int) (hl : g.pits.length = 14)
    (hb : g.pits.sum < 2 ^ 53) :
    ∃ r : Bool × MancalaGame, makeMove g pitIndex = some r ∧
      r.2.pits.sum = g.pits.sum ∧ r.2.pits.length = 14 := by
  by_cases h : rejected g pitIndex
  · exact ⟨(false, g), makeMove_rejected g pitIndex h, rfl, hl⟩
  · obtain ⟨B, L, hs, _, hsum, hlen, _⟩ :=
      sowStage_exact g pitIndex hl hb (accepted_own h).2.1
    have hf := finishMove_sum g B L hlen (by rw [hsum]; exact hb)
    refine ⟨(true, finishMove g B L), ?_, ?_, hf.2⟩
    · rw [makeMove_accepted g pitIndex h, hs]
      rfl
    · rw [hf.1, hsum]

theorem reachable_sum_length (g : MancalaGame) (h : Reachable g) :
    g.pits.sum = 48 ∧ g.pits.length = 14 := by
  induction h with
  | init => decide
  | move g p ok g1 _ hm ih =>
    obtain ⟨r, hr, h1, h2⟩ := makeMove_sum_length g p ih.2 (by rw [ih.1]; norm_num)
    rw [hm] at hr
    simp only [Option.some.injEq] at hr
    rw [← hr] at h1 h2
    exact ⟨by rw [h1]; exact ih.1, h2⟩
  | again g _ _ => decide

/-- C1, as stated, fails: on the board `[1, 2^53, 0,0,0,0,0, 1, 0,0,0,0,0,0]` with
Player 1 to move, `makeMove(0)` succeeds and the stone sown into pit 1 is lost to
rounding (`2^53 + 1` is not a double): the 14 counts sum to one less than before. -/
theorem conservation_fails :
    makeMove ⟨[1,9007199254740992,0,0,0,0,0,1,0,0,0,0,0,0], 1, none, false⟩ 0 =
      some (true, ⟨[0,9007199254740992,0,0,0,0,0,1,0,0,0,0,0,0], 2, none, false⟩) ∧
    [1,9007199254740992,0,0,0,0,0,1,0,0,0,0,0,0].length = 14 ∧
    [0,9007199254740992,0,0,0,0,0,1,0,0,0,0,0,0].sum + 1 =
      [1,9007199254740992,0,0,0,0,0,1,0,0,0,0,0,0].sum ∧
    (9007199254740992 : Nat) = 2 ^ 53 := by
  decide

/-- C1 (conservation, amended): on every board of 14 counts summing to less than
`2 ^ 53` and for every pit index argument, `makeMove` returns and, whether it
succeeds or fails, leaves the sum of the counts unchanged; and every state reachable
from `reset()` by `makeMove` and `reset` calls has its counts summing to 48. -/
theorem conservation :
    (∀ (g : MancalaGame) (pitIndex : Int), g.pits.length = 14 → g.pits.sum < 2 ^ 53 →
      ∃ r : Bool × MancalaGame, makeMove g pitIndex = some r ∧
        r.2.pits.sum = g.pits.sum) ∧
    (∀ g : MancalaGame, Reachable g → g.pits.sum = 48) :=
  ⟨fun g p hl hb =>
      (makeMove_sum_length g p hl hb).imp (fun _ h => ⟨h.1, h.2.1⟩),
    fun g h => (reachable_sum_length g h).1⟩

theorem conservation_witness :
    (∃ r : Bool × MancalaGame,
      makeMove ⟨[0,0,0,0,1,0,5,3,4,4,4,4,4,5], 1, none, false⟩ 4 = some r ∧
        r.2.pits.sum = [0,0,0,0,1,0,5,3,4,4,4,4,4,5].sum) ∧
    (⟨[4,4,0,5,5,5,1,4,4,4,4,4,4,0], 1, none, false⟩ : MancalaGame).pits.sum = 48 :=
  ⟨conservation.1 ⟨[0,0,0,0,1,0,5,3,4,4,4,4,4,5], 1, none, false⟩ 4 (by decide) (by decide),
    conservation.2 ⟨[4,4,0,5,5,5,1,4,4,4,4,4,4,0], 1, none, false⟩
      (Reachable.move reset 2 true _ Reachable.init (by decide))⟩

/-! ## Rejected calls -/

/-- C2, as stated, fails: with `2^53 + 4` stones in pit 0 and Player 1 to move, none
of the three guards of `makeMove(0)` holds, yet the call does not return true: the
decrement of the hand is lost to rounding, so the sowing loop exits within no number
of iterations and `makeMove` does not return. -/
theorem makeMove_never_returns :
    (⟨[9007199254740996,0,0,0,0,0,0,1,0,0,0,0,0,0], 1, none, false⟩ : MancalaGame).gameOver =
      false ∧
    isOwnPit 1 0 = true ∧
    rd [9007199254740996,0,0,0,0,0,0,1,0,0,0,0,0,0] 0 ≠ 0 ∧
    (9007199254740996 : Nat) = 2 ^ 53 + 4 ∧
    (∀ (n : Nat) (pits : List Nat) (ci : Int), sowLoop n pits ci 9007199254740996 13 = none) ∧
    makeMove ⟨[9007199254740996,0,0,0,0,0,0,1,0,0,0,0,0,0], 1, none, false⟩ 0 = none := by
  have hstuck := sowLoop_stuck 9007199254740996 13 (by decide) (by decide)
  refine ⟨rfl, by decide, by decide, by decide, hstuck, ?_⟩
  rw [makeMove_accepted _ _ (by unfold rejected; decide)]
  have : sowStage ⟨[9007199254740996,0,0,0,0,0,0,1,0,0,0,0,0,0], 1, none, false⟩ 0 = none :=
    hstuck _ _ _
  rw [this]
  rfl

/-- C2 (no-op on invalid move, amended): on a board of 14 counts, `makeMove(pitIndex)`
returns false exactly when `gameOver` is true, or `pitIndex` is not a sowable pit of
`currentPlayer` (both stores and every index outside 0..13 are not), or the pit is
empty; a call that returns false leaves all four fields as they were. In every other
case the call never returns false, and it returns true when the pit holds at most
`2 ^ 53` stones. -/
theorem makeMove_noop (g : MancalaGame) (pitIndex : Int) (_hl : g.pits.length = 14) :
    ((∃ r : MancalaGame, makeMove g pitIndex = some (false, r)) ↔
      (g.gameOver = true ∨ isOwnPit g.currentPlayer pitIndex = false ∨
        rd g.pits pitIndex = 0)) ∧
    (∀ r : MancalaGame, makeMove g pitIndex = some (false, r) → r = g) ∧
    (¬ (g.gameOver = true ∨ isOwnPit g.currentPlayer pitIndex = false ∨
        rd g.pits pitIndex = 0) →
      (∀ r : MancalaGame, makeMove g pitIndex ≠ some (false, r)) ∧
      (rd g.pits pitIndex ≤ 2 ^ 53 → ∃ r : MancalaGame, makeMove g pitIndex = some (true, r))) ∧
    (∀ player : Nat, isOwnPit player 6 = false ∧ isOwnPit player 13 = false) ∧
    (∀ (player : Nat) (i : Int), i < 0 ∨ 13 < i → isOwnPit player i = false) := by
  refine ⟨⟨?_, fun h => ⟨g, makeMove_rejected g pitIndex h⟩⟩, ?_, ?_, ?_, ?_⟩
  · rintro ⟨r, hr⟩
    exact (makeMove_false_inv g pitIndex r hr).1
  · intro r hr
    exact (makeMove_false_inv g pitIndex r hr).2
  · intro hacc
    refine ⟨fun r hr => hacc (makeMove_false_inv g pitIndex r hr).1, fun hb => ?_⟩
    rw [makeMove_accepted g pitIndex hacc, sowStage_exits g pitIndex hb]
    exact ⟨_, rfl⟩
  · intro player
    unfold isOwnPit
    split <;> simp
  · intro player i hi
    unfold isOwnPit
    split <;> simp <;> omega

theorem makeMove_noop_witness :
    (∃ r : MancalaGame,
      makeMove ⟨[4,0,5,5,5,5,0,4,4,4,4,4,4,0], 2, none, false⟩ 3 = some (false, r)) ∧
    (∃ r : MancalaGame,
      makeMove ⟨[4,0,5,5,5,5,0,4,4,4,4,4,4,0], 2, none, false⟩ 8 = some (true, r)) :=
  have h := makeMove_noop ⟨[4,0,5,5,5,5,0,4,4,4,4,4,4,0], 2, none, false⟩ 3 (by decide)
  have h2 := makeMove_noop ⟨[4,0,5,5,5,5,0,4,4,4,4,4,4,0], 2, none, false⟩ 8 (by decide)
  ⟨h.1.2 (Or.inr (Or.inl (by decide))), (h2.2.2.1 (by decide)).2 (by decide)⟩

/-! ## The sowing loop in closed form -/

/-- The board and landing index at the end of the sowing loop, in closed form, on a
board summing to less than `2 ^ 53`. -/
theorem sowStage_closed (g : MancalaGame) (p : Int) (hl : g.pits.length = 14)
    (hb : g.pits.sum < 2 ^ 53) (hown : isOwnPit g.currentPlayer p = true) :
    ∃ (B : List Nat) (L : Int), sowStage g p = some (B, L) ∧
      (∀ i : Int, 0 ≤ i → i < 14 → i ≠ getOpponentStore g.currentPlayer →
        rd B i =
          (if i = p then 0 else rd g.pits i) + rd g.pits p / 13 +
            (if i ∈ (followers (getOpponentStore g.currentPlayer) p).take (rd g.pits p % 13)
              then 1 else 0)) ∧
      rd B (getOpponentStore g.currentPlayer) =
        rd g.pits (getOpponentStore g.currentPlayer) ∧
      B.length = 14 ∧
      (1 ≤ rd g.pits p →
        ((followers (getOpponentStore g.currentPlayer) p).take
          ((rd g.pits p - 1) % 13 + 1)).getLast? = some L) := by
  have hc := own_pit_cases hown
  have hr := isOwnPit_range hown
  have hopp : 0 ≤ getOpponentStore g.currentPlayer ∧ getOpponentStore g.currentPlayer < 14 := by
    rcases hc with h | h <;> omega
  obtain ⟨hcount, hzero, hland⟩ :=
    visits_count (getOpponentStore g.currentPlayer) p hc (rd g.pits p)
  obtain ⟨B, L, hs, hL, _, hlen, hrd⟩ := sowStage_exact g p hl hb hown
  refine ⟨B, L, hs, ?_, ?_, hlen, ?_⟩
  · intro i h0 h1 hne
    rw [hrd i h0, hcount i h0 h1 hne]
    by_cases hip : i = p
    · subst hip
      rw [rd_wr_same _ _ _ (by rw [hl]; omega) h0]
      simp
    · rw [rd_wr_ne _ _ _ _ hr.1 h0 (fun h => hip h.symm)]
      simp [hip]
      omega
  · rw [hrd _ hopp.1, hzero, rd_wr_ne _ _ _ _ hr.1 hopp.1 hr.2.2.2.2]
    rfl
  · intro h1
    rw [hL]
    exact hland h1

/-- C3, as stated, fails: on the board `[1, 2^53, 0,0,0,0,0, 1, 0,0,0,0,0,0]`, not over,
with Player 1 playing own pit 0 (one stone), the claim gives pit 1 the count
`2^53 + 0 + 1`, and the sowing loop leaves pit 1 at `2^53`: the increment is lost to
rounding. -/
theorem sowing_distribution_fails :
    sowStage ⟨[1,9007199254740992,0,0,0,0,0,1,0,0,0,0,0,0], 1, none, false⟩ 0 =
      some ([0,9007199254740992,0,0,0,0,0,1,0,0,0,0,0,0], 1) ∧
    rd [0,9007199254740992,0,0,0,0,0,1,0,0,0,0,0,0] 1 = 2 ^ 53 ∧
    (if (1 : Int) = 0 then 0 else rd [1,9007199254740992,0,0,0,0,0,1,0,0,0,0,0,0] 1) +
        rd [1,9007199254740992,0,0,0,0,0,1,0,0,0,0,0,0] 0 / 13 +
        (if (1 : Int) ∈ (followers 13 0).take
            (rd [1,9007199254740992,0,0,0,0,0,1,0,0,0,0,0,0] 0 % 13) then 1 else 0) =
      2 ^ 53 + 1 := by
  decide

/-- C3 (sowing distribution, amended): in a state that is not over whose 14 counts sum
to less than `2 ^ 53`, for an own pit `p` of `currentPlayer` holding `s ≥ 1` stones,
the sowing loop of `makeMove` exits and the board at its end is the original board
with pit `p` set to 0 and then every index other than the opponent's store
incremented by `s / 13`, plus one more when the index is among the first `s % 13`
indices following `p` (increasing modulo 14, the opponent's store left out); the
opponent's store is unchanged; the landing index is the last index so incremented
(the last of the first `(s - 1) % 13 + 1` followers: `p` itself when `s` is a
multiple of 13). From the start position, Player 1 playing pit 1 gives
`[4,0,5,5,5,5,0,4,4,4,4,4,4,0]` with Player 2 to move. -/
theorem sowing_distribution (g : MancalaGame) (p : Int) (hl : g.pits.length = 14)
    (hb : g.pits.sum < 2 ^ 53)
    (_hgo : g.gameOver = false) (hown : isOwnPit g.currentPlayer p = true)
    (hs : 1 ≤ rd g.pits p) :
    (∃ (B : List Nat) (L : Int), sowStage g p = some (B, L) ∧
      (∀ i : Int, 0 ≤ i → i < 14 → i ≠ getOpponentStore g.currentPlayer →
        rd B i =
          (if i = p then 0 else rd g.pits i) + rd g.pits p / 13 +
            (if i ∈ (followers (getOpponentStore g.currentPlayer) p).take (rd g.pits p % 13)
              then 1 else 0)) ∧
      rd B (getOpponentStore g.currentPlayer) =
        rd g.pits (getOpponentStore g.currentPlayer) ∧
      B.length = 14 ∧
      ((followers (getOpponentStore g.currentPlayer) p).take
        ((rd g.pits p - 1) % 13 + 1)).getLast? = some L) ∧
    makeMove ⟨[4,4,4,4,4,4,0,4,4,4,4,4,4,0], 1, none, false⟩ 1 =
      some (true, ⟨[4,0,5,5,5,5,0,4,4,4,4,4,4,0], 2, none, false⟩) := by
  obtain ⟨B, L, h0, h1, h2, h3, h4⟩ := sowStage_closed g p hl hb hown
  exact ⟨⟨B, L, h0, h1, h2, h3, h4 hs⟩, by decide⟩

theorem sowing_distribution_witness :
    ∃ (B : List Nat) (L : Int),
      sowStage ⟨[0,0,0,0,0,0,0,0,0,0,0,0,30,18], 2, none, false⟩ 12 = some (B, L) ∧
      rd B 2 = 3 ∧ rd B 12 = 2 ∧ rd B 6 = 0 ∧ some L = some 2 :=
  have h := sowing_distribution ⟨[0,0,0,0,0,0,0,0,0,0,0,0,30,18], 2, none, false⟩ 12
    (by decide) (by decide) (by decide) (by decide) (by decide)
  h.1.imp (fun _ hB => hB.imp (fun _ hL =>
    ⟨hL.1, (hL.2.1 2 (by decide) (by decide) (by decide)).trans (by decide),
      (hL.2.1 12 (by decide) (by decide) (by decide)).trans (by decide),
      hL.2.2.1.trans (by decide), hL.2.2.2.2.symm.trans (by decide)⟩))

/-! ## Capture -/

/-- C4, as stated, fails: on the board `[1,0,0,0,1,0,0, 2^53, 1,0,0,0,0,0]` with
Player 1 playing pit 4, the stone lands in the empty own pit 5 opposite pit 7, which
holds `2^53`; the claim adds `2^53 + 1` to store 6, and the capture step adds `2^53`:
`pits[7] + 1` rounds to `2^53`. -/
theorem capture_rule_fails :
    makeMove ⟨[1,0,0,0,1,0,0,9007199254740992,1,0,0,0,0,0], 1, none, false⟩ 4 =
      some (true, ⟨[1,0,0,0,0,0,9007199254740992,0,1,0,0,0,0,0], 2, none, false⟩) ∧
    sowStage ⟨[1,0,0,0,1,0,0,9007199254740992,1,0,0,0,0,0], 1, none, false⟩ 4 =
      some ([1,0,0,0,0,1,0,9007199254740992,1,0,0,0,0,0], 5) ∧
    isOwnPit 1 5 = true ∧
    rd [1,0,0,0,0,1,0,9007199254740992,1,0,0,0,0,0] 5 = 1 ∧
    0 < rd [1,0,0,0,0,1,0,9007199254740992,1,0,0,0,0,0] (12 - 5) ∧
    rd (captureStep 1 [1,0,0,0,0,1,0,9007199254740992,1,0,0,0,0,0] 5) 6 = 2 ^ 53 ∧
    rd [1,0,0,0,0,1,0,9007199254740992,1,0,0,0,0,0] 6 +
        (rd [1,0,0,0,0,1,0,9007199254740992,1,0,0,0,0,0] (12 - 5) + 1) = 2 ^ 53 + 1 := by
  decide

/-- C4 (capture rule, amended): for a successful `makeMove` on a board of 14 counts
summing to less than `2 ^ 53`, with `B` the board right after sowing and `L` the
landing index: when `L` is a sowable pit of the mover, `B[L] = 1` and `B[12 - L] > 0`,
the capture step adds `B[12 - L] + 1` to the mover's store, sets `L` and `12 - L` to 0
and leaves the other counts; in every other case it changes nothing; landing in the
mover's own store never captures. The board after the capture step is the one handed
to `checkGameEnd`. -/
theorem capture_rule (g : MancalaGame) (p : Int) (hl : g.pits.length = 14)
    (hb : g.pits.sum < 2 ^ 53) (r : MancalaGame) (hok : makeMove g p = some (true, r)) :
    ∃ (B : List Nat) (L : Int), sowStage g p = some (B, L) ∧
      (isOwnPit g.currentPlayer L = true ∧ rd B L = 1 ∧ 0 < rd B (12 - L) →
        rd (captureStep g.currentPlayer B L) (getPlayerStore g.currentPlayer) =
          rd B (getPlayerStore g.currentPlayer) + (rd B (12 - L) + 1) ∧
        rd (captureStep g.currentPlayer B L) L = 0 ∧
        rd (captureStep g.currentPlayer B L) (12 - L) = 0 ∧
        ∀ i : Int, 0 ≤ i → i ≠ getPlayerStore g.currentPlayer → i ≠ L → i ≠ 12 - L →
          rd (captureStep g.currentPlayer B L) i = rd B i) ∧
      (¬ (isOwnPit g.currentPlayer L = true ∧ rd B L = 1 ∧ 0 < rd B (12 - L)) →
        captureStep g.currentPlayer B L = B) ∧
      (L = getPlayerStore g.currentPlayer → captureStep g.currentPlayer B L = B) ∧
      r.pits = (checkGameEnd { g with pits := captureStep g.currentPlayer B L }).pits := by
  obtain ⟨hacc, B, L, hs, hr⟩ := makeMove_true_inv g p r hok
  obtain ⟨B1, L1, hs1, _, hsum, hlen, _⟩ := sowStage_exact g p hl hb (accepted_own hacc).2.1
  rw [hs] at hs1
  simp only [Option.some.injEq, Prod.mk.injEq] at hs1
  obtain ⟨rfl, rfl⟩ := hs1
  refine ⟨B, L, hs, ?_, ?_, ?_, ?_⟩
  · rintro ⟨h1, h2, h3⟩
    have := captureStep_fire g.currentPlayer B L hlen (by rw [hsum]; exact hb) h1 h2 h3
    exact ⟨this.1, this.2.1, this.2.2.1, this.2.2.2.1⟩
  · intro h
    exact captureStep_idle g.currentPlayer _ _ h
  · intro hstore
    apply captureStep_idle
    rintro ⟨h1, _, _⟩
    exact (isOwnPit_range h1).2.2.2.1 hstore
  · rw [hr]
    exact (finishMove_fields g B L).1

theorem capture_rule_witness :
    ∃ (B : List Nat) (L : Int),
      sowStage ⟨[0,0,0,0,1,0,5,3,4,4,4,4,4,5], 1, none, false⟩ 4 = some (B, L) ∧
      (isOwnPit 1 L = true ∧ rd B L = 1 ∧ 0 < rd B (12 - L) →
        rd (captureStep 1 B L) 6 = rd B 6 + (rd B (12 - L) + 1)) :=
  (capture_rule ⟨[0,0,0,0,1,0,5,3,4,4,4,4,4,5], 1, none, false⟩ 4 (by decide) (by decide)
    ⟨[0,0,0,0,0,0,9,0,0,0,0,0,0,25], 1, some Winner.p2, true⟩ (by decide)).imp
    (fun _ hB => hB.imp (fun _ hL => ⟨hL.1, fun hc => (hL.2.1 hc).1⟩))

/-! ## Turn switch -/

/-- C5 (turn switch and extra turn): after a successful `makeMove` by mover `m` on a
board of 14 counts, with `L` the landing index, `currentPlayer` is the other player
exactly when `L` is not the store of `m` and `gameOver` is false after the call, and
is still `m` otherwise; a failing `makeMove` leaves `currentPlayer` alone. From
`[0,0,0,0,0,1,5,3,4,4,4,4,4,5]` with Player 1 to move, playing pit 5 makes store 6
equal 6 and Player 1 remains the current player. -/
theorem turn_switch (g : MancalaGame) (p : Int) (_hl : g.pits.length = 14) :
    (∀ r : MancalaGame, makeMove g p = some (true, r) →
      ∃ (B : List Nat) (L : Int), sowStage g p = some (B, L) ∧
        (r.currentPlayer = (if g.currentPlayer = 1 then 2 else 1) ↔
          (L ≠ getPlayerStore g.currentPlayer ∧ r.gameOver = false)) ∧
        (¬ (L ≠ getPlayerStore g.currentPlayer ∧ r.gameOver = false) →
          r.currentPlayer = g.currentPlayer)) ∧
    (∀ r : MancalaGame, makeMove g p = some (false, r) →
      r.currentPlayer = g.currentPlayer) ∧
    (∃ r : MancalaGame,
      makeMove ⟨[0,0,0,0,0,1,5,3,4,4,4,4,4,5], 1, none, false⟩ 5 = some (true, r) ∧
        rd r.pits 6 = 6 ∧ r.currentPlayer = 1) := by
  refine ⟨?_, ?_, ⟨⟨[0,0,0,0,0,0,6,0,0,0,0,0,0,28], 1, some Winner.p2, true⟩,
    by decide, by decide, by decide⟩⟩
  · intro r hok
    obtain ⟨_, B, L, hs, hr⟩ := makeMove_true_inv g p r hok
    obtain ⟨_, _, hg, hcp⟩ := finishMove_fields g B L
    have hne : (if g.currentPlayer = 1 then 2 else 1) ≠ g.currentPlayer := by
      split <;> omega
    refine ⟨B, L, hs, ?_⟩
    rw [hr, hg, hcp]
    by_cases hc : L ≠ getPlayerStore g.currentPlayer ∧
        (checkGameEnd { g with pits := captureStep g.currentPlayer B L }).gameOver = false
    · rw [if_pos hc]
      exact ⟨⟨fun _ => hc, fun _ => rfl⟩, fun h => absurd hc h⟩
    · rw [if_neg hc]
      exact ⟨⟨fun h => absurd h.symm hne, fun h => absurd h hc⟩, fun _ => rfl⟩
  · intro r hf
    rw [(makeMove_false_inv g p r hf).2]

theorem turn_switch_witness :
    (⟨[4,4,4,4,4,4,0,4,4,4,4,4,4,0], 1, none, false⟩ : MancalaGame).currentPlayer = 1 ∧
    ∃ (B : List Nat) (L : Int),
      sowStage ⟨[4,4,4,4,4,4,0,4,4,4,4,4,4,0], 1, none, false⟩ 3 = some (B, L) ∧
        L ≠ 6 :=
  ⟨(turn_switch ⟨[4,4,4,4,4,4,0,4,4,4,4,4,4,0], 1, none, false⟩ 9 (by decide)).2.1
      ⟨[4,4,4,4,4,4,0,4,4,4,4,4,4,0], 1, none, false⟩ (by decide),
    ((turn_switch ⟨[4,4,4,4,4,4,0,4,4,4,4,4,4,0], 1, none, false⟩ 3 (by decide)).1
      ⟨[4,4,4,0,5,5,1,5,4,4,4,4,4,0], 2, none, false⟩ (by decide)).imp
      (fun _ hB => hB.imp (fun _ hL => ⟨hL.1, (hL.2.1.1 rfl).1⟩))⟩

/-! ## End-game sweep -/

/-- C6, as stated, fails: on the board `[1,0,0,0,0,1, 2^53 - 1, 0,0,0,0,0,0,0]` with
Player 1 playing pit 5, the stone lands in store 6, the board after sowing and
capture is `[1,0,0,0,0,0, 2^53, 0,...]`, pits 7-12 are all zero and the game ends;
the claim makes store 6 equal `2^53 + 1`, and the sweep leaves `2^53`: `pits[6] +=
pits[0]` rounds. -/
theorem endgame_sweep_fails :
    makeMove ⟨[1,0,0,0,0,1,9007199254740991,0,0,0,0,0,0,0], 1, none, false⟩ 5 =
      some (true, ⟨[0,0,0,0,0,0,9007199254740992,0,0,0,0,0,0,0], 1, some Winner.p1, true⟩) ∧
    sowStage ⟨[1,0,0,0,0,1,9007199254740991,0,0,0,0,0,0,0], 1, none, false⟩ 5 =
      some ([1,0,0,0,0,0,9007199254740992,0,0,0,0,0,0,0], 6) ∧
    captureStep 1 [1,0,0,0,0,0,9007199254740992,0,0,0,0,0,0,0] 6 =
      [1,0,0,0,0,0,9007199254740992,0,0,0,0,0,0,0] ∧
    rd [0,0,0,0,0,0,9007199254740992,0,0,0,0,0,0,0] 6 = 2 ^ 53 ∧
    rd [1,0,0,0,0,0,9007199254740992,0,0,0,0,0,0,0] 6 +
        (rd [1,0,0,0,0,0,9007199254740992,0,0,0,0,0,0,0] 0 +
          rd [1,0,0,0,0,0,9007199254740992,0,0,0,0,0,0,0] 1 +
          rd [1,0,0,0,0,0,9007199254740992,0,0,0,0,0,0,0] 2 +
          rd [1,0,0,0,0,0,9007199254740992,0,0,0,0,0,0,0] 3 +
          rd [1,0,0,0,0,0,9007199254740992,0,0,0,0,0,0,0] 4 +
          rd [1,0,0,0,0,0,9007199254740992,0,0,0,0,0,0,0] 5) = 2 ^ 53 + 1 := by
  decide

/-- C6 (end-game sweep and winner, amended): for a successful `makeMove` on a board
of 14 counts summing to less than `2 ^ 53`, with `B` the board after sowing and
capture: if pits 0-5 of `B` are all zero or pits 7-12 are all zero, then after the
call `gameOver` is true, the twelve sowable pits are 0, store 6 is `B[6]` plus the sum
of `B[0..5]`, store 13 is `B[13]` plus the sum of `B[7..12]`, and `winner` is 1, 2 or
draw by comparing the stores (whatever the landing index was); otherwise `gameOver`
is false, `winner` is what it was and the board is `B`. From
`[0,0,0,0,0,1,10,2,3,1,0,0,0,9]` with Player 1 to move, playing pit 5 gives store
6 = 11, store 13 = 15, winner 2 and `gameOver` true. -/
theorem endgame_sweep (g : MancalaGame) (p : Int) (hl : g.pits.length = 14)
    (hb : g.pits.sum < 2 ^ 53) (r : MancalaGame) (hok : makeMove g p = some (true, r)) :
    (∃ (S : List Nat) (L : Int) (B : List Nat), sowStage g p = some (S, L) ∧
      B = captureStep g.currentPlayer S L ∧
      (((∀ i : Int, 0 ≤ i → i ≤ 5 → rd B i = 0) ∨
          (∀ i : Int, 7 ≤ i → i ≤ 12 → rd B i = 0)) →
        r.gameOver = true ∧
        (∀ i : Int, (0 ≤ i ∧ i ≤ 5) ∨ (7 ≤ i ∧ i ≤ 12) → rd r.pits i = 0) ∧
        rd r.pits 6 = rd B 6 + (rd B 0 + rd B 1 + rd B 2 + rd B 3 + rd B 4 + rd B 5) ∧
        rd r.pits 13 = rd B 13 + (rd B 7 + rd B 8 + rd B 9 + rd B 10 + rd B 11 + rd B 12) ∧
        r.winner = some
          (if rd r.pits 6 > rd r.pits 13 then Winner.p1
           else if rd r.pits 13 > rd r.pits 6 then Winner.p2
           else Winner.draw) ∧
        r.pits.length = 14) ∧
      (¬ ((∀ i : Int, 0 ≤ i → i ≤ 5 → rd B i = 0) ∨
          (∀ i : Int, 7 ≤ i → i ≤ 12 → rd B i = 0)) →
        r.gameOver = false ∧ r.winner = g.winner ∧ r.pits = B)) ∧
    makeMove ⟨[0,0,0,0,0,1,10,2,3,1,0,0,0,9], 1, none, false⟩ 5 =
      some (true, ⟨[0,0,0,0,0,0,11,0,0,0,0,0,0,15], 1, some Winner.p2, true⟩) := by
  obtain ⟨hacc, S, L, hs, hr⟩ := makeMove_true_inv g p r hok
  obtain ⟨hgo, hown, _⟩ := accepted_own hacc
  obtain ⟨S1, L1, hs1, _, hsum, hlen, _⟩ := sowStage_exact g p hl hb hown
  rw [hs] at hs1
  simp only [Option.some.injEq, Prod.mk.injEq] at hs1
  obtain ⟨rfl, rfl⟩ := hs1
  obtain ⟨hp, hw, hg, _⟩ := finishMove_fields g S L
  have hclen : (captureStep g.currentPlayer S L).length = 14 := by
    rw [captureStep_length]; exact hlen
  have hcsum : (captureStep g.currentPlayer S L).sum < 2 ^ 53 := by
    rw [captureStep_sum g.currentPlayer S L hlen (by rw [hsum]; exact hb), hsum]; exact hb
  refine ⟨⟨S, L, _, hs, rfl, ?_, ?_⟩, by decide⟩
  · intro h
    have hfire := checkGameEnd_fire { g with pits := captureStep g.currentPlayer S L }
      hclen hcsum h
    rw [hr, hp, hw, hg, hfire]
    dsimp only
    refine ⟨rfl, ?_, ?_, ?_, ?_, rfl⟩
    · rintro i (⟨h0, h1⟩ | ⟨h0, h1⟩)
      · interval_cases i <;> rfl
      · interval_cases i <;> rfl
    · rfl
    · rfl
    · rfl
  · intro h
    have hidle := checkGameEnd_idle { g with pits := captureStep g.currentPlayer S L } h
    rw [hr, hp, hw, hg, hidle]
    exact ⟨hgo, rfl, rfl⟩

theorem endgame_sweep_witness :
    ∃ (S : List Nat) (L : Int) (B : List Nat),
      sowStage ⟨[4,4,4,4,4,4,0,4,4,4,4,4,4,0], 1, none, false⟩ 2 = some (S, L) ∧
      B = captureStep 1 S L ∧
      (¬ ((∀ i : Int, 0 ≤ i → i ≤ 5 → rd B i = 0) ∨
          (∀ i : Int, 7 ≤ i → i ≤ 12 → rd B i = 0)) →
        [4,4,0,5,5,5,1,4,4,4,4,4,4,0] = B) :=
  (endgame_sweep ⟨[4,4,4,4,4,4,0,4,4,4,4,4,4,0], 1, none, false⟩ 2 (by decide) (by decide)
    ⟨[4,4,0,5,5,5,1,4,4,4,4,4,4,0], 1, none, false⟩ (by decide)).1.imp
    (fun _ hS => hS.imp (fun _ hL => hL.imp (fun _ hB =>
      ⟨hB.1, hB.2.1, fun hn => (hB.2.2.2 hn).2.2⟩)))

/-! ## The game-over invariant -/

theorem makeMove_end_cases (g : MancalaGame) (p : Int) (hl : g.pits.length = 14)
    (hb : g.pits.sum < 2 ^ 53) (r : MancalaGame) (hok : makeMove g p = some (true, r)) :
    (r.gameOver = true ∧ r.winner ≠ none ∧
        ∀ i : Int, (0 ≤ i ∧ i ≤ 5) ∨ (7 ≤ i ∧ i ≤ 12) → rd r.pits i = 0) ∨
      (r.gameOver = false ∧ r.winner = g.winner ∧
        ¬ ((∀ i : Int, 0 ≤ i → i ≤ 5 → rd r.pits i = 0) ∨
          (∀ i : Int, 7 ≤ i → i ≤ 12 → rd r.pits i = 0))) := by
  obtain ⟨hacc, S, L, hs, hr⟩ := makeMove_true_inv g p r hok
  obtain ⟨hgo, hown, _⟩ := accepted_own hacc
  obtain ⟨S1, L1, hs1, _, hsum, hlen, _⟩ := sowStage_exact g p hl hb hown
  rw [hs] at hs1
  simp only [Option.some.injEq, Prod.mk.injEq] at hs1
  obtain ⟨rfl, rfl⟩ := hs1
  obtain ⟨hp, hw, hg, _⟩ := finishMove_fields g S L
  have hclen : (captureStep g.currentPlayer S L).length = 14 := by
    rw [captureStep_length]; exact hlen
  have hcsum : (captureStep g.currentPlayer S L).sum < 2 ^ 53 := by
    rw [captureStep_sum g.currentPlayer S L hlen (by rw [hsum]; exact hb), hsum]; exact hb
  rw [hr, hp, hw, hg]
  by_cases h : (∀ i : Int, 0 ≤ i → i ≤ 5 → rd (captureStep g.currentPlayer S L) i = 0) ∨
      (∀ i : Int, 7 ≤ i → i ≤ 12 → rd (captureStep g.currentPlayer S L) i = 0)
  · left
    rw [checkGameEnd_fire { g with pits := captureStep g.currentPlayer S L } hclen hcsum h]
    dsimp only
    refine ⟨rfl, by simp, ?_⟩
    rintro i (⟨h0, h1⟩ | ⟨h0, h1⟩)
    · interval_cases i <;> rfl
    · interval_cases i <;> rfl
  · right
    rw [checkGameEnd_idle { g with pits := captureStep g.currentPlayer S L } h]
    exact ⟨hgo, rfl, h⟩

theorem reachable_inv (g : MancalaGame) (h : Reachable g) :
    (g.winner = none ↔ g.gameOver = false) ∧
      (g.gameOver = true →
        ∀ i : Int, (0 ≤ i ∧ i ≤ 5) ∨ (7 ≤ i ∧ i ≤ 12) → rd g.pits i = 0) ∧
      (g.gameOver = false →
        ¬ ((∀ i : Int, 0 ≤ i → i ≤ 5 → rd g.pits i = 0) ∨
          (∀ i : Int, 7 ≤ i → i ≤ 12 → rd g.pits i = 0))) := by
  induction h with
  | init => exact ⟨by decide, fun h => absurd h (by decide), fun _ => by decide⟩
  | again g _ _ => exact ⟨by decide, fun h => absurd h (by decide), fun _ => by decide⟩
  | move g p ok g1 hr hm ih =>
    cases ok with
    | false =>
      rw [(makeMove_false_inv g p g1 hm).2]
      exact ih
    | true =>
      obtain ⟨hsum, hl⟩ := reachable_sum_length g hr
      have hgo := (accepted_own (makeMove_true_inv g p g1 hm).1).1
      rcases makeMove_end_cases g p hl (by rw [hsum]; norm_num) g1 hm with
        ⟨h1, h2, h3⟩ | ⟨h1, h2, h3⟩
      · refine ⟨⟨fun h => absurd h h2, fun h => ?_⟩, fun _ => h3, fun h => ?_⟩
        · rw [h1] at h
          exact Bool.noConfusion h
        · rw [h1] at h
          exact Bool.noConfusion h
      · refine ⟨⟨fun _ => h1, fun _ => ?_⟩, fun h => ?_, fun _ => h3⟩
        · rw [h2]
          exact ih.1.2 hgo
        · rw [h1] at h
          exact Bool.noConfusion h

theorem moves_over (g : MancalaGame) (hgo : g.gameOver = true) :
    ∀ ps : List Int, moves g ps = some g := by
  intro ps
  induction ps with
  | nil => rfl
  | cons p t ih =>
    rw [moves, makeMove_rejected g p (Or.inl hgo)]
    exact ih

theorem reachable_moves (g : MancalaGame) (h : Reachable g) :
    ∀ (ps : List Int) (g1 : MancalaGame), moves g ps = some g1 → Reachable g1 := by
  intro ps
  induction ps generalizing g with
  | nil =>
    intro g1 hg
    simp only [moves, Option.some.injEq] at hg
    rw [← hg]
    exact h
  | cons p t ih =>
    intro g1 hg
    rw [moves] at hg
    cases hm : makeMove g p with
    | none => rw [hm] at hg; simp at hg
    | some r =>
      rw [hm] at hg
      exact ih r.2 (Reachable.move g p r.1 r.2 h hm) g1 hg

/-- C7 (game-over invariant): in every state reachable from `reset()` by `makeMove`
and `reset` calls, `winner` is unset exactly when `gameOver` is false; and when
`gameOver` is true, pits 0-5 and 7-12 are all zero, `winner` is 1, 2 or draw, every
`makeMove` call is refused and no sequence of `makeMove` calls changes the state. -/
theorem gameover_invariant (g : MancalaGame) (h : Reachable g) :
    (g.winner = none ↔ g.gameOver = false) ∧
    (g.gameOver = true →
      (∀ i : Int, (0 ≤ i ∧ i ≤ 5) ∨ (7 ≤ i ∧ i ≤ 12) → rd g.pits i = 0) ∧
      (g.winner = some Winner.p1 ∨ g.winner = some Winner.p2 ∨
        g.winner = some Winner.draw) ∧
      (∀ p : Int, makeMove g p = some (false, g)) ∧
      ∀ ps : List Int, moves g ps = some g) := by
  obtain ⟨h1, h2, _⟩ := reachable_inv g h
  refine ⟨h1, fun hgo => ⟨h2 hgo, ?_, fun p => makeMove_rejected g p (Or.inl hgo),
    moves_over g hgo⟩⟩
  have hw : g.winner ≠ none := by
    intro hn
    rw [h1.1 hn] at hgo
    exact Bool.noConfusion hgo
  cases hwv : g.winner with
  | none => exact absurd hwv hw
  | some w => cases w <;> simp

theorem gameover_invariant_witness :
    (⟨[0,0,0,0,0,0,41,0,0,0,0,0,0,7], 2, some Winner.p1, true⟩ : MancalaGame).winner ≠ none ∧
    makeMove ⟨[0,0,0,0,0,0,41,0,0,0,0,0,0,7], 2, some Winner.p1, true⟩ 7 =
      some (false, ⟨[0,0,0,0,0,0,41,0,0,0,0,0,0,7], 2, some Winner.p1, true⟩) ∧
    moves reset [5, 8, 9, 0, 10, 0, 11, 0, 12] =
      some ⟨[0,0,0,0,0,0,41,0,0,0,0,0,0,7], 2, some Winner.p1, true⟩ :=
  have hm : moves reset [5, 8, 9, 0, 10, 0, 11, 0, 12] =
      some ⟨[0,0,0,0,0,0,41,0,0,0,0,0,0,7], 2, some Winner.p1, true⟩ := by decide
  have h := gameover_invariant ⟨[0,0,0,0,0,0,41,0,0,0,0,0,0,7], 2, some Winner.p1, true⟩
    (reachable_moves reset Reachable.init _ _ hm)
  ⟨fun hn => absurd (h.1.1 hn) (by decide), (h.2 rfl).2.2.1 7, hm⟩

/-! ## The capture scenario -/

/-- C8, as stated, fails: from `[0,0,0,0,1,0,5,3,4,4,4,4,4,5]` with Player 1 to move,
`makeMove(4)` does not leave `[0,0,0,0,0,0,9,0,4,4,4,4,4,5]` with Player 2 to move. -/
theorem capture_scenario_fails :
    ¬ ∃ r : MancalaGame,
      makeMove ⟨[0,0,0,0,1,0,5,3,4,4,4,4,4,5], 1, none, false⟩ 4 = some (true, r) ∧
        r.pits = [0,0,0,0,0,0,9,0,4,4,4,4,4,5] ∧ r.currentPlayer = 2 := by
  rintro ⟨r, h1, h2, _⟩
  have h : makeMove ⟨[0,0,0,0,1,0,5,3,4,4,4,4,4,5], 1, none, false⟩ 4 =
      some (true, ⟨[0,0,0,0,0,0,9,0,0,0,0,0,0,25], 1, some Winner.p2, true⟩) := by decide
  rw [h] at h1
  simp only [Option.some.injEq, Prod.mk.injEq, true_and] at h1
  rw [← h1] at h2
  exact absurd h2 (by decide)

/-- C8 (capture scenario, amended): from `[0,0,0,0,1,0,5,3,4,4,4,4,4,5]` with Player 1
to move, winner unset and `gameOver` false, `makeMove(4)` succeeds; the board after the
capture step is `[0,0,0,0,0,0,9,0,4,4,4,4,4,5]`, which leaves Player 1's row empty, so
the end-game sweep runs: the resulting pits are `[0,0,0,0,0,0,9,0,0,0,0,0,0,25]`,
`gameOver` is true, winner is 2 and `currentPlayer` is still 1. -/
theorem capture_scenario :
    makeMove ⟨[0,0,0,0,1,0,5,3,4,4,4,4,4,5], 1, none, false⟩ 4 =
      some (true, ⟨[0,0,0,0,0,0,9,0,0,0,0,0,0,25], 1, some Winner.p2, true⟩) ∧
    sowStage ⟨[0,0,0,0,1,0,5,3,4,4,4,4,4,5], 1, none, false⟩ 4 =
      some ([0,0,0,0,0,1,5,3,4,4,4,4,4,5], 5) ∧
    captureStep 1 [0,0,0,0,0,1,5,3,4,4,4,4,4,5] 5 = [0,0,0,0,0,0,9,0,4,4,4,4,4,5] := by
  decide

/-! ## Capture and the pit played -/

/-- C9, as stated, fails: after the moves 5, 8, 7, 0, 8, 4, 8, 2, 7, 3, 8, 5 from the
start position the board is `[0,5,0,0,2,0,5,2,1,13,7,6,6,1]` with Player 2 to move;
playing pit 9 sows 13 stones, lands in pit 9 itself and captures, although pit 9 held
13 stones before the move. -/
theorem capture_after_full_lap :
    moves reset [5, 8, 7, 0, 8, 4, 8, 2, 7, 3, 8, 5] =
      some ⟨[0,5,0,0,2,0,5,2,1,13,7,6,6,1], 2, none, false⟩ ∧
    makeMove ⟨[0,5,0,0,2,0,5,2,1,13,7,6,6,1], 2, none, false⟩ 9 =
      some (true, ⟨[1,6,1,0,3,1,5,3,2,0,8,7,7,4], 1, none, false⟩) ∧
    sowStage ⟨[0,5,0,0,2,0,5,2,1,13,7,6,6,1], 2, none, false⟩ 9 =
      some ([1,6,1,1,3,1,5,3,2,1,8,7,7,2], 9) ∧
    captures 2 [1,6,1,1,3,1,5,3,2,1,8,7,7,2] 9 = true ∧
    rd [0,5,0,0,2,0,5,2,1,13,7,6,6,1] 9 = 13 := by
  decide

/-- C9 (capture and the landing pit, amended): for a successful `makeMove` on a board
of 14 counts in which the capture is performed, either the landing pit held zero
stones before the move, or the landing pit is the pit played and it held exactly 13
stones (one full lap). -/
theorem capture_landing_pit (g : MancalaGame) (p : Int) (hl : g.pits.length = 14)
    (B : List Nat) (L : Int) (hs : sowStage g p = some (B, L))
    (r : MancalaGame) (hok : makeMove g p = some (true, r))
    (hcap : captures g.currentPlayer B L = true) :
    rd g.pits L = 0 ∨ (L = p ∧ rd g.pits p = 13) := by
  obtain ⟨hacc, _⟩ := makeMove_true_inv g p r hok
  obtain ⟨_, hown, hne⟩ := accepted_own hacc
  have hr := isOwnPit_range hown
  obtain ⟨d, hB, hL, hd1, hd2⟩ := sowStage_some g p B L hs
  have hdpos : 1 ≤ d := by
    by_cases hb : rd g.pits p ≤ 2 ^ 53
    · have := hd1 hb; omega
    · have := hd2 (by omega); omega
  have hc := own_pit_cases hown
  have hlast := lap_last _ _ hc
  obtain ⟨hcount, _, hland⟩ := visits_count (getOpponentStore g.currentPlayer) p hc d
  have hmem := List.mem_of_getLast?_eq_some (hland hdpos)
  rw [← hL] at hmem
  unfold captures at hcap
  simp only [Bool.and_eq_true, decide_eq_true_eq] at hcap
  obtain ⟨⟨hLown, hone⟩, _⟩ := hcap
  have hLr := isOwnPit_range hLown
  have hge := deposit_ge (visits (getOpponentStore g.currentPlayer) p d) (wr g.pits p 0) L
    (visits_range _ _ _) (by rw [length_wr]; exact hl) hLr.1
  rw [← hB, hone, hcount L hLr.1 (by omega) hLr.2.2.2.2] at hge
  by_cases hLp : L = p
  · right
    refine ⟨hLp, ?_⟩
    rw [hLp] at hge hmem
    have hind : p ∉ (followers (getOpponentStore g.currentPlayer) p).take (d % 13) :=
      fun h => hlast ((List.take_sublist_take_left _ (by omega)).subset h)
    rw [if_neg hind] at hge
    have h13 : ¬ ((d - 1) % 13 + 1 ≤ 12) :=
      fun h => hlast ((List.take_sublist_take_left _ h).subset hmem)
    have hd13 : d = 13 := by omega
    by_cases hb : rd g.pits p ≤ 2 ^ 53
    · have := hd1 hb; omega
    · have := hd2 (by omega); omega
  · left
    rw [rd_wr_ne _ _ _ _ hr.1 hLr.1 (fun h => hLp h.symm)] at hge
    by_cases hz : d % 13 = 0
    · omega
    · have he : (d - 1) % 13 + 1 = d % 13 := by omega
      rw [he] at hmem
      rw [if_pos hmem] at hge
      omega

theorem capture_landing_pit_witness :
    rd [0,0,0,0,1,0,5,3,4,4,4,4,4,5] 5 = 0 ∨
      ((5 : Int) = 4 ∧ rd [0,0,0,0,1,0,5,3,4,4,4,4,4,5] 4 = 13) :=
  capture_landing_pit ⟨[0,0,0,0,1,0,5,3,4,4,4,4,4,5], 1, none, false⟩ 4 (by decide)
    [0,0,0,0,0,1,5,3,4,4,4,4,4,5] 5 (by decide)
    ⟨[0,0,0,0,0,0,9,0,0,0,0,0,0,25], 1, some Winner.p2, true⟩ (by decide) (by decide)

/-! ## Snapshots -/

/-- C10 (snapshot round trip): `loadState(getState())` leaves pits, `currentPlayer`,
`winner` and `gameOver` as they were; and for every record `s`, `getState()` after
`loadState(s)` returns a record equal to `s` field for field, whatever instance it is
loaded into and whatever `s` holds (no validation). -/
theorem snapshot_roundtrip :
    (∀ g : MancalaGame, loadState g (getState g) = g) ∧
    (∀ (g : MancalaGame) (s : GameState), getState (loadState g s) = s) ∧
    (∀ (g : MancalaGame) (s : GameState),
      (loadState g s).pits = s.pits ∧ (loadState g s).currentPlayer = s.currentPlayer ∧
        (loadState g s).winner = s.winner ∧ (loadState g s).gameOver = s.gameOver) :=
  ⟨fun _ => rfl, fun _ _ => rfl, fun _ _ => ⟨rfl, rfl, rfl, rfl⟩⟩

/-! ## The input lock -/

theorem handlePitClick_locked (s : Coordinator) (p : Int) (h : s.isSyncing = true) :
    handlePitClick s p = some (s, []) := by
  unfold handlePitClick
  rw [if_pos h]

theorem handlePitClick_refused (s : Coordinator) (p : Int) (hrej : rejected s.game p) :
    handlePitClick s p = some (s, []) := by
  unfold handlePitClick
  by_cases h : s.isSyncing = true
  · rw [if_pos h]
  · rw [if_neg h]
    rcases hrej with h1 | h1 | h1
    · rw [if_pos h1]
    · by_cases hg : s.game.gameOver = true
      · rw [if_pos hg]
      · rw [if_neg hg, if_pos (by rw [h1]; rfl)]
    · by_cases hg : s.game.gameOver = true
      · rw [if_pos hg]
      · rw [if_neg hg]
        by_cases ho : (!isOwnPit s.game.currentPlayer p) = true
        · rw [if_pos ho]
        · rw [if_neg ho, if_pos h1]

/-- An unlocked call that passes the guards: what it does follows from its
`makeMove` call, which does not return false. -/
theorem handlePitClick_accepted (s : Coordinator) (p : Int) (h : s.isSyncing = false)
    (hacc : ¬ rejected s.game p) :
    handlePitClick s p =
      (sowStage s.game p).map (fun sown =>
        (({ game := finishMove s.game sown.1 sown.2, isSyncing := true } : Coordinator),
          [Effect.lock true, Effect.move p true,
            Effect.publish (getState (finishMove s.game sown.1 sown.2)), Effect.visuals])) := by
  obtain ⟨h1, h2, h3⟩ := accepted_own hacc
  unfold handlePitClick
  simp only [h, h1, h2, h3, Bool.false_eq_true, ↓reduceIte, Bool.not_true]
  rw [makeMove_accepted s.game p hacc]
  cases sowStage s.game p <;> rfl

/-- C11 (locked input is dropped): when `isSyncing` is true, `handlePitClick(pitIndex)`
returns with the game (pits, `currentPlayer`, `winner`, `gameOver`) and the lock as
they were and with nothing done, so nothing published; when the lock is false and the
move is legal on a board of 14 counts, the call sets the lock to true, then applies
`makeMove`, then publishes exactly one snapshot, which is `getState()` of the state
after the move. -/
theorem locked_input_dropped (s : Coordinator) (p : Int) :
    (s.isSyncing = true →
      ∃ out : Coordinator × List Effect, handlePitClick s p = some out ∧
        out.1 = s ∧ out.2 = [] ∧ published out.2 = []) ∧
    (s.isSyncing = false → s.game.pits.length = 14 →
      ∀ g1 : MancalaGame, makeMove s.game p = some (true, g1) →
        ∃ (s1 : Coordinator) (effects : List Effect),
          handlePitClick s p = some (s1, effects) ∧
          effects =
            [Effect.lock true, Effect.move p true, Effect.publish (getState g1),
              Effect.visuals] ∧
          published effects = [getState g1] ∧
          s1.game = g1 ∧
          published effects = [getState s1.game]) := by
  constructor
  · intro h
    exact ⟨(s, []), handlePitClick_locked s p h, rfl, rfl, rfl⟩
  · intro h _ g1 hok
    obtain ⟨hacc, B, L, hs, hr⟩ := makeMove_true_inv s.game p g1 hok
    refine ⟨⟨g1, true⟩, _, ?_, rfl, rfl, rfl, rfl⟩
    rw [handlePitClick_accepted s p h hacc, hs, hr]
    rfl

theorem locked_input_dropped_witness :
    (∃ out : Coordinator × List Effect,
      handlePitClick ⟨⟨[4,4,4,4,4,4,0,4,4,4,4,4,4,0], 1, none, false⟩, true⟩ 2 = some out ∧
        out.1 = ⟨⟨[4,4,4,4,4,4,0,4,4,4,4,4,4,0], 1, none, false⟩, true⟩ ∧ out.2 = [] ∧
        published out.2 = []) ∧
    ∃ (s1 : Coordinator) (effects : List Effect),
      handlePitClick ⟨⟨[4,4,4,4,4,4,0,4,4,4,4,4,4,0], 1, none, false⟩, false⟩ 2 =
        some (s1, effects) ∧
      published effects = [⟨[4,4,0,5,5,5,1,4,4,4,4,4,4,0], 1, none, false⟩] :=
  ⟨(locked_input_dropped
      ⟨⟨[4,4,4,4,4,4,0,4,4,4,4,4,4,0], 1, none, false⟩, true⟩ 2).1 rfl,
    ((locked_input_dropped
      ⟨⟨[4,4,4,4,4,4,0,4,4,4,4,4,4,0], 1, none, false⟩, false⟩ 2).2 rfl (by decide)
      ⟨[4,4,0,5,5,5,1,4,4,4,4,4,4,0], 1, none, false⟩ (by decide)).imp
      (fun _ h1 => h1.imp (fun _ h2 => ⟨h2.1, h2.2.2.1⟩))⟩

/-! ## No stuck position -/

/-- C12 (no stuck position): in every state reachable from `reset()` by `makeMove`
and `reset` calls, if `gameOver` is false then pits 0-5 hold a non-empty pit and pits
7-12 hold a non-empty pit, and there is a pit index, a sowable pit of
`currentPlayer`, for which `makeMove` succeeds. -/
theorem no_stuck_position (g : MancalaGame) (h : Reachable g) (hgo : g.gameOver = false) :
    (∃ i : Int, 0 ≤ i ∧ i ≤ 5 ∧ rd g.pits i ≠ 0) ∧
    (∃ i : Int, 7 ≤ i ∧ i ≤ 12 ∧ rd g.pits i ≠ 0) ∧
    ∃ (p : Int) (r : MancalaGame),
      isOwnPit g.currentPlayer p = true ∧ makeMove g p = some (true, r) := by
  have hrow := (reachable_inv g h).2.2 hgo
  obtain ⟨hsum, _⟩ := reachable_sum_length g h
  simp only [not_or, not_forall] at hrow
  obtain ⟨⟨i, hi0, hi1, hi⟩, ⟨j, hj0, hj1, hj⟩⟩ := hrow
  have key : ∀ q : Int, isOwnPit g.currentPlayer q = true → rd g.pits q ≠ 0 →
      ∃ (p : Int) (r : MancalaGame),
        isOwnPit g.currentPlayer p = true ∧ makeMove g p = some (true, r) := by
    intro q hown hq
    have hacc : ¬ rejected g q := by
      rintro (h1 | h1 | h1)
      · rw [hgo] at h1
        exact Bool.noConfusion h1
      · rw [hown] at h1
        exact Bool.noConfusion h1
      · exact hq h1
    have hle := rd_le_sum g.pits q
    have hex : ∃ r : MancalaGame, makeMove g q = some (true, r) := by
      rw [makeMove_accepted g q hacc, sowStage_exits g q (by omega)]
      exact ⟨_, rfl⟩
    obtain ⟨r, hr⟩ := hex
    exact ⟨q, r, hown, hr⟩
  refine ⟨⟨i, hi0, hi1, hi⟩, ⟨j, hj0, hj1, hj⟩, ?_⟩
  by_cases hcp : g.currentPlayer = 1
  · exact key i (by unfold isOwnPit; simp [hcp, hi0, hi1]) hi
  · exact key j (by unfold isOwnPit; simp [hcp, hj0, hj1]) hj

theorem no_stuck_position_witness :
    ∃ (p : Int) (r : MancalaGame),
      isOwnPit 2 p = true ∧
        makeMove ⟨[0,5,0,0,2,0,5,2,1,13,7,6,6,1], 2, none, false⟩ p = some (true, r) :=
  (no_stuck_position ⟨[0,5,0,0,2,0,5,2,1,13,7,6,6,1], 2, none, false⟩
    (reachable_moves reset Reachable.init [5, 8, 7, 0, 8, 4, 8, 2, 7, 3, 8, 5] _ (by decide))
    rfl).2.2

/-! ## The three legality tests -/

theorem isValid_iff (g : MancalaGame) (i : Int) :
    isValid g i = true ↔
      (g.gameOver = false ∧ isOwnPit g.currentPlayer i = true ∧ rd g.pits i ≠ 0) := by
  unfold isValid
  simp only [Bool.and_eq_true, Bool.not_eq_true', decide_eq_true_eq, and_assoc]
  constructor
  · rintro ⟨h1, h2, h3⟩
    exact ⟨h1, h2, by omega⟩
  · rintro ⟨h1, h2, h3⟩
    exact ⟨h1, h2, by omega⟩

theorem guards_iff (g : MancalaGame) (i : Int) :
    (g.gameOver = false ∧ isOwnPit g.currentPlayer i = true ∧ rd g.pits i ≠ 0) ↔
      ¬ rejected g i := by
  constructor
  · rintro ⟨h1, h2, h3⟩ (h | h | h)
    · rw [h1] at h
      exact Bool.noConfusion h
    · rw [h2] at h
      exact Bool.noConfusion h
    · exact h3 h
  · exact accepted_own

theorem pitColor_highlight_iff (g : MancalaGame) (i : Int) :
    pitColor g i = some PitColor.highlight ↔ isValid g i = true := by
  unfold pitColor
  constructor
  · intro h
    by_cases hv : isValid g i = true
    · exact hv
    · exfalso
      split at h
      · split at h <;> simp at h
      · simp at h
  · intro hv
    have hr := isOwnPit_range ((isValid_iff g i).1 hv).2.1
    rw [if_pos ⟨hr.2.2.1, by omega⟩, if_pos hv]

/-- C13, as stated, fails: with `2^53 + 8` stones in pit 9 and Player 2 to move, the
guards of `handlePitClick` all pass for index 9 and `syncVisuals` colours pit 9 as a
valid move, yet `makeMove(9)` does not return true: the decrement of the hand is lost
to rounding and the call does not return. -/
theorem legality_agree_fails :
    (⟨[1,0,0,0,0,0,0,0,0,9007199254741000,0,0,0,0], 2, none, false⟩ : MancalaGame).gameOver =
      false ∧
    isOwnPit 2 9 = true ∧
    rd [1,0,0,0,0,0,0,0,0,9007199254741000,0,0,0,0] 9 ≠ 0 ∧
    isValid ⟨[1,0,0,0,0,0,0,0,0,9007199254741000,0,0,0,0], 2, none, false⟩ 9 = true ∧
    pitColor ⟨[1,0,0,0,0,0,0,0,0,9007199254741000,0,0,0,0], 2, none, false⟩ 9 =
      some PitColor.highlight ∧
    (9007199254741000 : Nat) = 2 ^ 53 + 8 ∧
    (∀ (n : Nat) (pits : List Nat) (ci : Int), sowLoop n pits ci 9007199254741000 6 = none) ∧
    makeMove ⟨[1,0,0,0,0,0,0,0,0,9007199254741000,0,0,0,0], 2, none, false⟩ 9 = none ∧
    handlePitClick ⟨⟨[1,0,0,0,0,0,0,0,0,9007199254741000,0,0,0,0], 2, none, false⟩, false⟩ 9 =
      none := by
  have hstuck := sowLoop_stuck 9007199254741000 6 (by decide) (by decide)
  have hs : sowStage ⟨[1,0,0,0,0,0,0,0,0,9007199254741000,0,0,0,0], 2, none, false⟩ 9 = none :=
    hstuck _ _ _
  refine ⟨rfl, by decide, by decide, by decide, by decide, by decide, hstuck, ?_, ?_⟩
  · rw [makeMove_accepted _ _ (by unfold rejected; decide), hs]
    rfl
  · rw [handlePitClick_accepted _ _ rfl (by unfold rejected; decide)]
    show Option.map _
      (sowStage ⟨[1,0,0,0,0,0,0,0,0,9007199254741000,0,0,0,0], 2, none, false⟩ 9) = none
    rw [hs]
    rfl

/-- C13 (legality predicates agree, amended): on a board of 14 counts and for every
index 0..13, these two coincide: the guards of `handlePitClick` all pass (game not
over, `isOwnPit(currentPlayer, index)`, `pits[index]` not zero), which is when an
unlocked `handlePitClick` gets past them; `syncVisuals` computes `isValid` true, which
is when it colours the pit as a valid move. `makeMove(index)` returns true only when
they hold, and when they hold it never returns false and it returns true if the pit
holds at most `2 ^ 53` stones. Hence, for every lock value and pit index, the
`makeMove` call inside `handlePitClick` never returns false and the branch that
releases the lock is never taken. -/
theorem legality_agree (g : MancalaGame) (i : Int) (_hl : g.pits.length = 14)
    (_h0 : 0 ≤ i) (_h1 : i ≤ 13) :
    ((∃ r : MancalaGame, makeMove g i = some (true, r)) →
      (g.gameOver = false ∧ isOwnPit g.currentPlayer i = true ∧ rd g.pits i ≠ 0)) ∧
    ((g.gameOver = false ∧ isOwnPit g.currentPlayer i = true ∧ rd g.pits i ≠ 0) →
      (∀ r : MancalaGame, makeMove g i ≠ some (false, r)) ∧
      (rd g.pits i ≤ 2 ^ 53 → ∃ r : MancalaGame, makeMove g i = some (true, r))) ∧
    ((g.gameOver = false ∧ isOwnPit g.currentPlayer i = true ∧ rd g.pits i ≠ 0) ↔
      handlePitClick ⟨g, false⟩ i ≠ some (⟨g, false⟩, [])) ∧
    ((g.gameOver = false ∧ isOwnPit g.currentPlayer i = true ∧ rd g.pits i ≠ 0) ↔
      isValid g i = true) ∧
    (isValid g i = true ↔ pitColor g i = some PitColor.highlight) ∧
    (∀ (b : Bool) (p : Int) (out : Coordinator × List Effect),
      handlePitClick ⟨g, b⟩ p = some out →
        Effect.move p false ∉ out.2 ∧ Effect.lock false ∉ out.2) := by
  refine ⟨?_, ?_, ?_, (isValid_iff g i).symm, (pitColor_highlight_iff g i).symm, ?_⟩
  · rintro ⟨r, hr⟩
    exact (guards_iff g i).2 (makeMove_true_inv g i r hr).1
  · intro hg
    have hacc := (guards_iff g i).1 hg
    refine ⟨fun r hr => hacc (makeMove_false_inv g i r hr).1, fun hb => ?_⟩
    rw [makeMove_accepted g i hacc, sowStage_exits g i hb]
    exact ⟨_, rfl⟩
  · rw [guards_iff]
    constructor
    · intro hacc
      rw [handlePitClick_accepted ⟨g, false⟩ i rfl hacc]
      cases sowStage g i <;> simp
    · intro hne hrej
      exact hne (handlePitClick_refused ⟨g, false⟩ i hrej)
  · intro b p out hout
    by_cases hrej : rejected g p
    · rw [handlePitClick_refused ⟨g, b⟩ p hrej] at hout
      simp only [Option.some.injEq] at hout
      rw [← hout]
      simp
    · cases b with
      | true =>
        rw [handlePitClick_locked ⟨g, true⟩ p rfl] at hout
        simp only [Option.some.injEq] at hout
        rw [← hout]
        simp
      | false =>
        rw [handlePitClick_accepted ⟨g, false⟩ p rfl hrej] at hout
        cases hs : sowStage g p with
        | none => rw [hs] at hout; simp at hout
        | some sown =>
          rw [hs] at hout
          simp only [Option.map_some', Option.some.injEq] at hout
          rw [← hout]
          simp

theorem legality_agree_witness :
    (∃ r : MancalaGame,
      makeMove ⟨[4,0,5,5,5,5,0,4,4,4,4,4,4,0], 2, none, false⟩ 8 = some (true, r)) ∧
    pitColor ⟨[4,0,5,5,5,5,0,4,4,4,4,4,4,0], 2, none, false⟩ 8 = some PitColor.highlight :=
  have h := legality_agree ⟨[4,0,5,5,5,5,0,4,4,4,4,4,4,0], 2, none, false⟩ 8 (by decide)
    (by decide) (by decide)
  ⟨(h.2.1 (by decide)).2 (by decide), h.2.2.2.2.1.1 (by decide)⟩

end Mancala
